import Mathlib

/-!
Verification of the CBOR JavaScript API (cyberphone/cbor-js-api) against its
natural-language specification.

The embedding below follows the effective source snapshot of
`src/cbor-js-api.js` (the class `CBOR` defining `CBOR.Int`, `CBOR.BigInt`,
`CBOR.Float`, `CBOR.String`, `CBOR.Bytes`, `CBOR.Bool`, `CBOR.Null`,
`CBOR.Array`, `CBOR.Map`, `CBOR.Tag`, the decoder core and `CBOR.decode`).
Byte sequences are `List Nat` with each element a byte value; JavaScript
numbers that hold integers are `Nat`/`Int`; JavaScript `BigInt` is `Int`;
IEEE-754 binary64 values are represented by their 64-bit pattern as a `Nat`.
Fallible operations return `Except String` carrying the `Error` message
prefix thrown by the source (the source usually appends the offending key or
tag in hex; those suffixes are dropped here where they would require the
diagnostic-notation printer).
-/

namespace CborJs

/-- `CBOR.#compare(a, b)`: byte-by-byte comparison up to the shorter length,
then the length difference decides.  First differing byte decides the sign. -/
def compareBytes : List Nat → List Nat → Int
  | a :: as, b :: bs =>
    if (a : Int) - (b : Int) ≠ 0 then (a : Int) - (b : Int) else compareBytes as bs
  | a, b => (a.length : Int) - (b.length : Int)

/-- The `while (length < 8 && n >= mask) { modifier++; length <<= 1; mask *= mask; }`
loop of `CBOR.#encodeTagAndN`.  State is `(modifier, length, mask)`.  Starting
from `(24, 1, 0x100)` the body can run at most 3 times (length 1 → 2 → 4 → 8
ends the guard), so fuel 3 makes the fuel-0 fallthrough unreachable. -/
def encodeTagAndNLoop (n : Nat) : Nat → Nat × Nat × Nat → Nat × Nat × Nat
  | 0, st => st
  | fuel + 1, (modifier, length, mask) =>
    if length < 8 ∧ n ≥ mask then encodeTagAndNLoop n fuel (modifier + 1, length * 2, mask * mask)
    else (modifier, length, mask)

/-- The big-endian bytes written by
`while (length > 0) { encoded[length--] = n; n /= 256; }`: the byte stored at
offset `i` (0-based within the extension field) is `n / 256 ^ (length-1-i)`
truncated to a byte by the `Uint8Array` store. -/
def beBytes (n length : Nat) : List Nat :=
  (List.range length).map (fun i => n / 256 ^ (length - 1 - i) % 256)

/-- `CBOR.#encodeTagAndN(majorType, n)`: `n ≤ 23` goes directly into the
header byte, otherwise the mask loop picks modifier 24/25/26/27 and the
1/2/4/8-byte big-endian extension field. -/
def encodeTagAndN (majorType n : Nat) : List Nat :=
  if n > 23 then
    let r := encodeTagAndNLoop n 3 (24, 1, 0x100)
    ((majorType ||| r.1) % 256) :: beBytes n r.2.1
  else [(majorType ||| n) % 256]

/-- `CBOR.#int16ToByteArray(int16)` = `[int16 / 256, int16 % 256]` stored into
a `Uint8Array` (hence the byte truncation). -/
def int16ToByteArray (int16 : Nat) : List Nat := [int16 / 256 % 256, int16 % 256]

/-- `CBOR.#oneHex` -/
def oneHex (digit : Nat) : Char :=
  Char.ofNat (if digit < 10 then 48 + digit else 87 + digit)

/-- `CBOR.#twoHex` -/
def twoHex (byte : Nat) : String := String.mk [oneHex (byte / 16), oneHex (byte % 16)]

/-!  ## The Float canonicalizer (`CBOR.Float` constructor)

The constructor receives a JavaScript number, i.e. exactly an IEEE-754
binary64 value; it is embedded here by its 64-bit pattern `p`.
`u8 = CBOR.#f64ToByteArray(number)` is the big-endian byte view of `p`.  -/

/-- `u8[i]`, the `i`-th big-endian byte of the binary64 pattern `p`. -/
def f64Byte (p i : Nat) : Nat := p / 2 ^ (8 * (7 - i)) % 256

/-- Structural floor of the base-2 logarithm (`Nat.log2`, restated so the
kernel can evaluate it; the first argument of the worker is fuel, and
`n` fuel always suffices since the argument at least halves each step). -/
def floorLog2A : Nat → Nat → Nat
  | 0, _ => 0
  | fuel + 1, n => if n ≤ 1 then 0 else floorLog2A fuel (n / 2) + 1

/-- floor of log2; `floorLog2 0 = 0`. -/
def floorLog2 (n : Nat) : Nat := floorLog2A n n

/-- Value-preserving widening of an IEEE-754 binary32 bit pattern to the
binary64 pattern denoting the same real value (the meaning of "the double is
exactly representable at 32-bit width").  Normals widen by re-biasing the
exponent and left-aligning the significand; subnormals (value
`m23 * 2 ^ (-149)`) are normalized; exponent 255 maps to the corresponding
infinity/NaN patterns (never a finite double). -/
def widen32 (q : Nat) : Nat :=
  let s := q / 2 ^ 31 % 2
  let e8 := q / 2 ^ 23 % 256
  let m23 := q % 2 ^ 23
  if e8 = 255 then s * 2 ^ 63 + 2047 * 2 ^ 52 + m23 * 2 ^ 29
  else if e8 = 0 then
    if m23 = 0 then s * 2 ^ 63
    else s * 2 ^ 63 + (floorLog2 m23 + 874) * 2 ^ 52 +
      (m23 - 2 ^ floorLog2 m23) * 2 ^ (52 - floorLog2 m23)
  else s * 2 ^ 63 + (e8 + 896) * 2 ^ 52 + m23 * 2 ^ 29

/-- Value-preserving widening of an IEEE-754 binary16 bit pattern to the
binary64 pattern denoting the same real value.  Subnormal value is
`m10 * 2 ^ (-24)`. -/
def widen16 (q : Nat) : Nat :=
  let s := q / 2 ^ 15 % 2
  let e5 := q / 2 ^ 10 % 32
  let m10 := q % 2 ^ 10
  if e5 = 31 then s * 2 ^ 63 + 2047 * 2 ^ 52 + m10 * 2 ^ 42
  else if e5 = 0 then
    if m10 = 0 then s * 2 ^ 63
    else s * 2 ^ 63 + (floorLog2 m10 + 999) * 2 ^ 52 +
      (m10 - 2 ^ floorLog2 m10) * 2 ^ (52 - floorLog2 m10)
  else s * 2 ^ 63 + (e5 + 1008) * 2 ^ 52 + m10 * 2 ^ 42

/-- Modelled from the spec: the source tests `Math.fround(number) == number`,
which for a finite number holds exactly when the binary64 value is exactly
representable in binary32 ("The following code depends on that Math.fround
works as expected").  Bit-level characterization for a finite nonzero pattern
with biased exponent `e` and 52-bit significand `m`: either a binary32 normal
(biased-11 exponent between 897 and 1150, low 29 significand bits zero) or a
binary32 subnormal (exponent between 874 and 896, the significand divisible
by `2 ^ (926 - e)`).  `f32Exact_iff_widen32` below proves this equivalent to
`∃ q, widen32 q = p`. -/
def f32Exact (p : Nat) : Bool :=
  let e := p / 2 ^ 52 % 2048
  let m := p % 2 ^ 52
  decide ((897 ≤ e ∧ e ≤ 1150 ∧ m % 2 ^ 29 = 0) ∨ (874 ≤ e ∧ e ≤ 896 ∧ m % 2 ^ (926 - e) = 0))

/-- Body iterations of the F32 subnormal renormalization
`do { if (f32signif & 1) throw; f32signif >>= 1 } while (++f32exp < 0);`.
The do-while increments `exp` by one per iteration and exits the first time
it reaches 0, so running it from a negative `exp` is exactly `(-exp).toNat`
iterations, after which `exp = 0`. -/
def renormF32A : Nat → Nat → Int → Except String (Nat × Int)
  | 0, signif, exp => .ok (signif, exp)
  | iters + 1, signif, exp =>
    if signif % 2 = 1 then .error ("unexpected offscale")
    else renormF32A iters (signif / 2) (exp + 1)

/-- The F32 subnormal renormalization loop (entered after
`f32signif += 1 << 23; f32exp--;`, hence with `exp < 0`). -/
def renormF32 (signif : Nat) (exp : Int) : Except String (Nat × Int) :=
  renormF32A (-exp).toNat signif exp

/-- Body iterations of the F16 variant: on a lost bit the significand is set
to 0 and the loop breaks (the caller then falls back to F32). -/
def renormF16A : Nat → Nat → Int → Nat × Int
  | 0, signif, exp => (signif, exp)
  | iters + 1, signif, exp =>
    if signif % 2 = 1 then (0, exp)
    else renormF16A iters (signif / 2) (exp + 1)

/-- The F16 subnormal renormalization loop. -/
def renormF16 (signif : Nat) (exp : Int) : Nat × Int :=
  renormF16A (-exp).toNat signif exp

/-- The 32-bit packing at the bottom of the constructor:
`addArrays(int16ToByteArray(f32bin / 0x10000), int16ToByteArray(f32bin % 0x10000))`
(the JavaScript `/` is real division; the fractional part is dropped by the
`Uint8Array` byte stores, so Nat division matches). -/
def f32Bytes (f32bin : Nat) : List Nat :=
  int16ToByteArray (f32bin / 0x10000) ++ int16ToByteArray (f32bin % 0x10000)

/-- The `CBOR.Float` constructor: from the binary64 pattern `p` it derives
the encoding tag (0xf9/0xfa/0xfb) and the payload bytes.  Returns
`Except` because the source contains two `throw` assertions
("unexpected fraction" / "unexpected offscale") on states it believes
unreachable. -/
def floatCtor (p : Nat) : Except String (Nat × List Nat) :=
  let e := p / 2 ^ 52 % 2048
  let m := p % 2 ^ 52
  let sign := p / 2 ^ 63 % 2
  if e = 2047 ∧ m ≠ 0 then .ok (0xf9, int16ToByteArray 0x7e00)
  else if e = 2047 then .ok (0xf9, int16ToByteArray (if sign = 1 then 0xfc00 else 0x7c00))
  else if e = 0 ∧ m = 0 then .ok (0xf9, int16ToByteArray (if sign = 1 then 0x8000 else 0x0000))
  else if f32Exact p then
    -- `f32 == number`: nothing lost, F32 or F16 is on the menu.
    let u8 := f64Byte p
    let f32exp : Int := (((u8 0 &&& 0x7f) <<< 4) + ((u8 1 &&& 0xf0) >>> 4) : Nat) - 1023 + 127
    if (u8 4 &&& 0x1f) ≠ 0 ∨ u8 5 ≠ 0 ∨ u8 6 ≠ 0 ∨ u8 7 ≠ 0 then .error ("unexpected fraction")
    else
      let f32signif := ((u8 1 &&& 0x0f) <<< 19) + (u8 2 <<< 11) + (u8 3 <<< 3) + (u8 4 >>> 5)
      match (if f32exp ≤ 0 then renormF32 (f32signif + 2 ^ 23) (f32exp - 1)
             else .ok (f32signif, f32exp)) with
      | .error msg => .error msg
      | .ok (f32signif, f32exp) =>
        let f32bin := (u8 0 &&& 0x80) * 0x1000000 + f32exp.toNat * 0x800000 + f32signif
        if f32exp = 0 ∨ (f32signif &&& 0x1fff) ≠ 0 then .ok (0xfa, f32Bytes f32bin)
        else
          let f16exp : Int := f32exp - 127 + 15
          let f16signif := f32signif >>> 13
          if f16exp > 30 then .ok (0xfa, f32Bytes f32bin)
          else
            -- the final packing `f16bin = sign | (f16exp << 10) | f16signif`
            let packF16 : Nat → Int → Except String (Nat × List Nat) := fun f16signif f16exp =>
              .ok (0xf9, int16ToByteArray
                (((u8 0 &&& 0x80) <<< 8) + f16exp.toNat * 2 ^ 10 + f16signif))
            if f16exp ≤ 0 then
              match renormF16 (f16signif + 2 ^ 10) (f16exp - 1) with
              | (0, _) =>
                -- `if (f16signif == 0) break;`: too small for F16, stick to F32.
                .ok (0xfa, f32Bytes f32bin)
              | (f16signif1, f16exp1) => packF16 f16signif1 f16exp1
            else packF16 f16signif f16exp
  else
    -- converting to F32 truncated: full 64-bit representation required.
    .ok (0xfb, (List.range 8).map (f64Byte p))

/-- `CBOR.Float.encode()`: the tag byte followed by the precomputed payload.
The constructor assertions never fire (proved later), so the `.error` default
is unreachable. -/
def floatEncode (p : Nat) : List Nat :=
  match floatCtor p with
  | .ok (tag, encoded) => tag :: encoded
  | .error _ => []


/-- Modelled from the claim wording for C2: the unique binary32 pattern of a
finite nonzero double that is exactly representable at 32-bit width (normal
for biased-11 exponents from 897, subnormal below). -/
def canon32 (s e m : Nat) : Nat :=
  if 897 ≤ e then s * 2 ^ 31 + (e - 896) * 2 ^ 23 + m / 2 ^ 29
  else s * 2 ^ 31 + (m / 2 ^ (926 - e) + 2 ^ (e - 874))

/-- Modelled from the claim wording for C2: the unique binary16 pattern of a
finite nonzero double that is exactly representable at 16-bit width. -/
def canon16 (s e m : Nat) : Nat :=
  if 1009 ≤ e then s * 2 ^ 15 + (e - 1008) * 2 ^ 10 + m / 2 ^ 42
  else s * 2 ^ 15 + (m / 2 ^ (1051 - e) + 2 ^ (e - 999))

/-!  ## The value model -/

/-- The closed set of CBOR value kinds of the source.  `CBOR.Map` state is
carried inline: the entry list in linked-list order (an entry is
`(key, encodedKey, value)` mirroring the `#Entry` fields, where
`encodedKey = key.encode()` is computed at insertion time), the most recently
inserted entry (`#lastEntry`), the `#numberOfEntries` counter and the private
`#deterministicMode` flag. -/
inductive Value : Type where
  | int (n : Int)
  | bigint (n : Int)
  | float (p : Nat)
  | str (utf8 : List Nat)
  | bytes (b : List Nat)
  | bool (b : Bool)
  | null
  | arr (elements : List Value)
  | map (root : List (Value × List Nat × Value))
        (lastEntry : Option (Value × List Nat × Value))
        (numberOfEntries : Nat)
        (deterministicMode : Bool)
  | tag (tagNumber : Nat) (object : Value)

/-!  ## BigInt encoding (`CBOR.BigInt.encode`) -/

/-- `do { array.push(Number(temp & 255n)); temp >>= 8n; } while (temp);`
— the little-endian base-256 digits, at least one. -/
def leDigitsA : Nat → Nat → List Nat
  | 0, n => [n % 256]
  | fuel + 1, n => n % 256 :: (if n / 256 = 0 then [] else leDigitsA fuel (n / 256))

/-- the digit list of `n`; the worker fuel `n` always suffices since the
argument shrinks by a factor 256 per step. -/
def leDigits (n : Nat) : List Nat := leDigitsA n n

/-- `while (length < 8 && length > 2 && length != 4) { array.push(0); length++; }`
— pad the digit list to the next length in {1, 2, 4, 8}. -/
def padLoopA : Nat → List Nat → List Nat
  | 0, array => array
  | fuel + 1, array =>
    if array.length < 8 ∧ array.length > 2 ∧ array.length ≠ 4 then padLoopA fuel (array ++ [0])
    else array

/-- the pad loop; the guard keeps the length below 8, so fuel 8 makes the
fuel-0 fallthrough unreachable. -/
def padLoop (array : List Nat) : List Nat := padLoopA 8 array

/-- `while (length >>= 1) modifier++;` -/
def modLoopA : Nat → Nat → Nat → Nat
  | 0, modifier, _ => modifier
  | fuel + 1, modifier, length =>
    let len := length >>> 1
    if len ≠ 0 then modLoopA fuel (modifier + 1) len else modifier

/-- the modifier loop; the worker fuel `length` always suffices since the
argument halves per step. -/
def modLoop (modifier length : Nat) : Nat := modLoopA length modifier length

/-- `CBOR.Bytes.encode()` on raw bytes. -/
def bytesItemEncode (b : List Nat) : List Nat := encodeTagAndN 0x40 b.length ++ b

/-- `CBOR.BigInt.encode()`: negative values are represented through
`~number = -number - 1` under the negative major type; the magnitude becomes
its little-endian digits, padded to a length in {1, 2, 4, 8} when at most 8
bytes long and then emitted as a plain integer (1-byte magnitudes below 24
fold into the header byte); longer magnitudes get the 0xc2/0xc3 tag wrapping
the bytes as a `CBOR.Bytes` item. -/
def bigIntEncode (v : Int) : List Nat :=
  let tag : Nat := if v < 0 then 0x20 else 0x00
  let value : Nat := if v < 0 then (-v - 1).toNat else v.toNat
  let array := leDigits value
  let byteArray := (padLoop array).reverse
  let length := byteArray.length
  if length ≤ 8 then
    if length = 1 ∧ byteArray.headD 0 < 24 then [(tag ||| byteArray.headD 0) % 256]
    else ((tag ||| modLoop 24 length) % 256) :: byteArray
  else (if tag = 0x20 then 0xc3 else 0xc2) :: bytesItemEncode byteArray

/-!  ## Encoding (`encode()` of every kind) -/

mutual

/-- `encode()` of each value kind.  `CBOR.String.encode` runs `TextEncoder`
on the stored string; the model carries the UTF-8 bytes directly.
`CBOR.Map.encode` emits the `#numberOfEntries` count then each entry's
`key.encode()` and `value.encode()` in list order. -/
def encode : Value → List Nat
  | .int n => if n < 0 then encodeTagAndN 0x20 (-n - 1).toNat else encodeTagAndN 0x00 n.toNat
  | .bigint n => bigIntEncode n
  | .float p => floatEncode p
  | .str utf8 => encodeTagAndN 0x60 utf8.length ++ utf8
  | .bytes b => bytesItemEncode b
  | .bool b => [if b then 0xf5 else 0xf4]
  | .null => [0xf6]
  | .arr elements => encodeTagAndN 0x80 elements.length ++ encodeList elements
  | .map root _ numberOfEntries _ => encodeTagAndN 0xa0 numberOfEntries ++ encodeEntries root
  | .tag tagNumber object => encodeTagAndN 0xc0 tagNumber ++ encode object

/-- element-wise encoding of an array's object list. -/
def encodeList : List Value → List Nat
  | [] => []
  | v :: vs => encode v ++ encodeList vs

/-- entry-wise encoding of a map's entry list. -/
def encodeEntries : List (Value × List Nat × Value) → List Nat
  | [] => []
  | (k, _, v) :: es => (encode k ++ encode v) ++ encodeEntries es

end

/-!  ## The Map Ordering Engine (`CBOR.Map.set` and friends) -/

/-- The mutable state of a `CBOR.Map`: the singly linked entry list from
`#root` in link order, the most recently created entry (`#lastEntry`),
`#numberOfEntries`, and the private `#deterministicMode` flag (initialized to
`false` and never written again anywhere in the module: the decoder assigns
`cborMap.deterministicMode = ...`, which creates an unrelated *public*
property and leaves the private field untouched). -/
structure MapState where
  root : List (Value × List Nat × Value)
  lastEntry : Option (Value × List Nat × Value)
  numberOfEntries : Nat
  deterministicMode : Bool

/-- A fresh `new CBOR.Map()`. -/
def emptyMap : MapState := ⟨[], none, 0, false⟩

/-- The map state as a `Value`. -/
def MapState.toValue (m : MapState) : Value :=
  .map m.root m.lastEntry m.numberOfEntries m.deterministicMode

/-- The scan-and-splice loop of `CBOR.Map.set` when `#deterministicMode` is
false: walk the list; an entry with equal encoded key throws `Duplicate`;
the new entry is spliced in before the first entry with a greater encoded
key, or appended at the tail when every entry compares lower (`diff < 0`
after the loop).  The source message appends `key.toString()`; the model
keeps the fixed prefix. -/
def sortedInsert (entries : List (Value × List Nat × Value))
    (newEntry : Value × List Nat × Value) : Except String (List (Value × List Nat × Value)) :=
  match entries with
  | [] => .ok [newEntry]
  | entry :: rest =>
    let diff := compareBytes entry.2.1 newEntry.2.1
    if diff = 0 then .error ("Duplicate: ")
    else if diff > 0 then .ok (newEntry :: entry :: rest)
    else (sortedInsert rest newEntry).map (fun tail => entry :: tail)

/-- `CBOR.Map.set(key, object)`.  A new entry `(key, key.encode(), object)`
is built first; every `throw` in the source occurs before any write to the
map, so the error component is paired with the untouched input state.  In
the `#deterministicMode` branch the new key is compared only against
`#lastEntry`; the success path `this.#lastEntry.next = newEntry` appends
after `#lastEntry`, which is the list tail whenever `#lastEntry` lies in the
list (always the case in states this development reaches). -/
def mapSet (m : MapState) (key object : Value) : MapState × Option String :=
  let newEntry : Value × List Nat × Value := (key, encode key, object)
  match m.root with
  | [] => (⟨[newEntry], some newEntry, m.numberOfEntries + 1, m.deterministicMode⟩, none)
  | _ :: _ =>
    if m.deterministicMode then
      match m.lastEntry with
      | none =>
        -- `this.#lastEntry.compare(...)` on an undefined `#lastEntry`:
        -- a TypeError; unreachable since a nonempty root sets `#lastEntry`.
        (m, some ("TypeError: lastEntry is undefined"))
      | some lastEntry =>
        let diff := compareBytes lastEntry.2.1 newEntry.2.1
        if diff ≥ 0 then
          (m, some (if diff = 0 then "Duplicate: " else "Non-deterministic order: "))
        else (⟨m.root ++ [newEntry], some newEntry, m.numberOfEntries + 1,
               m.deterministicMode⟩, none)
    else
      match sortedInsert m.root newEntry with
      | .error msg => (m, some msg)
      | .ok root1 => (⟨root1, some newEntry, m.numberOfEntries + 1, m.deterministicMode⟩, none)

/-- A JavaScript argument handed to the API: either a CBOR object or any
other JavaScript value (rejected by `CBOR.#cborArguentCheck`). -/
inductive JsArg where
  | cborObject (v : Value)
  | notCbor

/-- `CBOR.#cborArguentCheck` (sic). -/
def cborArguentCheck : JsArg → Except String Value
  | .cborObject v => .ok v
  | .notCbor => .error ("Argument is not a CBOR object")

/-- `CBOR.Map.set` including the argument checks: `#getKey(key)` (which is
`cborArguentCheck`) runs first, then `cborArguentCheck(object)`, both before
the entry is built and before any state is read or written. -/
def mapSetChecked (m : MapState) (key object : JsArg) : MapState × Option String :=
  match cborArguentCheck key with
  | .error msg => (m, some msg)
  | .ok k =>
    match cborArguentCheck object with
    | .error msg => (m, some msg)
    | .ok o => mapSet m k o

/-!  ## The decoder core -/

/-- `Number.MAX_SAFE_INTEGER`. -/
def maxSafeInteger : Nat := 2 ^ 53 - 1

/-- The state of `CBOR.#_decoder`: the buffer, the read cursor, and the
flags passed to `initExtended` (`deterministicMode = !acceptNonDeterministic`). -/
structure DecoderState where
  cbor : List Nat
  counter : Nat
  sequenceFlag : Bool
  deterministicMode : Bool
  constrainedMapKeys : Bool
  atFirstByte : Bool

/-- `readByte()`: past the end of the buffer it returns `#MT_NULL` when a
sequence decode sits at an item boundary and throws otherwise; inside the
buffer it clears `atFirstByte` and consumes one byte. -/
def readByte (s : DecoderState) : Except String (Nat × DecoderState) :=
  if s.cbor.length ≤ s.counter then
    if s.sequenceFlag ∧ s.atFirstByte then .ok (0xf6, s)
    else .error ("Reading past end of buffer")
  else
    .ok (s.cbor.getD s.counter 0,
         { s with counter := s.counter + 1, atFirstByte := false })

/-- `readBytes(length)`. -/
def readBytesD : Nat → DecoderState → Except String (List Nat × DecoderState)
  | 0, s => .ok ([], s)
  | len + 1, s => do
    let (b, s) ← readByte s
    let (bs, s) ← readBytesD len s
    .ok (b :: bs, s)

/-- The extension-field loop
`while (--q >= 0) { bigN <<= 8n; bigN += BigInt(readByte()); }`. -/
def readChunk : Nat → Nat → DecoderState → Except String (Nat × DecoderState)
  | 0, acc, s => .ok (acc, s)
  | q + 1, acc, s => do
    let (b, s) ← readByte s
    readChunk q (acc * 256 + b) s

/-- `rangeLimitedBigInt(number)`. -/
def rangeLimitedBigInt (number : Nat) : Except String Nat :=
  if number > 0xffffffff then .error ("Length limited to 0xffffffff") else .ok number

/-- `.getBytes()` on a decoded object: a type check that only `CBOR.Bytes`
passes. -/
def getBytesV : Value → Except String (List Nat)
  | .bytes b => .ok b
  | _ => .error ("Invalid object for this method")

/-- `getObject()` of the decoder core.  The `fuel` parameter is an artifact
of the embedding (the source recursion is bounded by the input since every
call first consumes at least one byte in non-sequence mode); all wrappers
pass fuel exceeding the buffer length, making the fuel-0 branch unreachable
there.  The map case runs
`for (let q = rangeLimitedBigInt(bigN); --q >= 0;) cborMap.set(this.getObject(), this.getObject());`
— `len` iterations, key decoded before value, a `set` throw aborting the
decode — rendered as a monadic fold over `List.range len`.
Faithfulness notes, mirroring the source text:
* the float16/32/64 cases of the `switch` are commented out in the source,
  so tag bytes 0xf9/0xfa/0xfb fall through to the length-field logic and end
  in the `default: unsupportedTag` branch;
* `case MT_TAG` evaluates `getObject()` — a bare identifier that is not in
  scope (the method is only reachable as `this.getObject`), hence a
  `ReferenceError`;
* `case MT_STRING` evaluates `UTF8.decode(...)`, and no `UTF8` binding
  exists anywhere in the module, hence a `ReferenceError` before any byte of
  the string is read;
* `case MT_ARRAY` evaluates `cborArray.add(getObject())` in the loop body —
  the same out-of-scope bare `getObject`, hence a `ReferenceError` whenever
  the element count is nonzero;
* `case MT_MAP` assigns `cborMap.deterministicMode` and
  `cborMap.constrainedKeys` — *public* properties that `CBOR.Map.set` never
  reads (it reads the private `#deterministicMode`, still false), so pairs
  are inserted through the sorting path, not the append path. -/
def getObject : Nat → DecoderState → Except String (Value × DecoderState)
  | 0, _ => .error ("out of fuel")
  | fuel + 1, s0 => do
    let (tag, s) ← readByte s0
    if tag = 0xc3 ∨ tag = 0xc2 then do
      let (obj, s) ← getObject fuel s
      let byteArray ← getBytesV obj
      if (byteArray.length = 0 ∨ byteArray.headD 0 = 0 ∨ byteArray.length ≤ 8) ∧
          s.deterministicMode then
        .error ("Non-deterministic big integer encoding")
      else
        let number : Int := byteArray.foldl (fun (acc : Int) (byte : Nat) => acc * 256 + (byte : Int)) 0
        let number : Int := if tag = 0xc3 then -number - 1 else number
        .ok (.bigint number, s)
    else if tag = 0xf6 then .ok (.null, s)
    else if tag = 0xf5 ∨ tag = 0xf4 then .ok (.bool (tag = 0xf5), s)
    else
      let n := tag &&& 0x1f
      if n > 27 then .error ("Unsupported tag: " ++ twoHex tag)
      else do
        let (bigN, s) ←
          if n > 23 then do
            let q := 1 <<< (n - 24)
            let mask := 0xffffffff <<< ((q >>> 1) * 8)
            let (bigN, s) ← readChunk q 0 s
            if (bigN < 24 ∨ mask &&& bigN = 0) ∧ s.deterministicMode then
              .error ("Non-deterministic N encoding for tag: 0x" ++ twoHex tag)
            else pure (bigN, s)
          else pure (n, s)
        match tag &&& 0xe0 with
        | 0xc0 => .error ("ReferenceError: getObject is not defined")
        | 0x00 =>
          if bigN > maxSafeInteger then .ok (.bigint (bigN : Int), s)
          else .ok (.int (bigN : Int), s)
        | 0x20 =>
          let v : Int := -(bigN : Int) - 1
          if v < -(maxSafeInteger : Int) then .ok (.bigint v, s) else .ok (.int v, s)
        | 0x40 => do
          let len ← rangeLimitedBigInt bigN
          let (result, s) ← readBytesD len s
          .ok (.bytes result, s)
        | 0x60 => .error ("ReferenceError: UTF8 is not defined")
        | 0x80 => do
          let len ← rangeLimitedBigInt bigN
          if len = 0 then .ok (.arr [], s)
          else .error ("ReferenceError: getObject is not defined")
        | 0xa0 => do
          let len ← rangeLimitedBigInt bigN
          let (cborMap, s) ← (List.range len).foldlM
            (fun (acc : MapState × DecoderState) _ => do
              let (key, s) ← getObject fuel acc.2
              let (object, s) ← getObject fuel s
              match mapSet acc.1 key object with
              | (m1, none) => pure (m1, s)
              | (_, some msg) => .error msg)
            (emptyMap, s)
          .ok (cborMap.toValue, s)
        | _ => .error ("Unsupported tag: " ++ twoHex tag)

/-- `CBOR.#getObject(decoder)`: set `atFirstByte`, decode one object, then
either detect end-of-sequence (`none`) or reject trailing data.  The fuel
passed to the core exceeds the buffer length, so the embedding artifact
cannot fire. -/
def getObjectTop (d0 : DecoderState) : Except String (Option Value × DecoderState) :=
  let d := { d0 with atFirstByte := true }
  match getObject (d.cbor.length + 1) d with
  | .error msg => .error msg
  | .ok (object, d1) =>
    if d.sequenceFlag then
      if d1.atFirstByte then .ok (none, d1) else .ok (some object, d1)
    else if d1.counter < d1.cbor.length then
      .error ("Unexpected data encountered after CBOR object")
    else .ok (some object, d1)

/-- `new CBOR.#_decoder(cbor, sequenceFlag, acceptNonDeterministic, constrainedMapKeys)`. -/
def initDecoder (cbor : List Nat)
    (sequenceFlag acceptNonDeterministic constrainedMapKeys : Bool) : DecoderState :=
  ⟨cbor, 0, sequenceFlag, !acceptNonDeterministic, constrainedMapKeys, false⟩

/-- `CBOR.decode(cbor)`: strict (deterministic) single-item decode.  The
`Option` mirrors the sequence-mode `null` return and is always `some` here. -/
def decode (cbor : List Nat) : Except String (Option Value) :=
  match getObjectTop (initDecoder cbor false false false) with
  | .error msg => .error msg
  | .ok (object, _) => .ok object

/-- `CBOR.decodeExtended(CBOR.initExtended(cbor, false, true, false))`:
single-item decode with `acceptNonDeterministic` set (lenient mode). -/
def decodeLenient (cbor : List Nat) : Except String (Option Value) :=
  match getObjectTop (initDecoder cbor false true false) with
  | .error msg => .error msg
  | .ok (object, _) => .ok object


/-!  ## Statement-side definitions -/

/-- The numeric value of a big-endian byte sequence (the very fold the
decoder runs: `number <<= 8n; number += byte`). -/
def beVal (bs : List Nat) : Nat := bs.foldl (fun acc b => acc * 256 + b) 0

/-- Worker for `minimalBE` (fuel in the first argument, `n` suffices). -/
def minimalBEA : Nat → Nat → List Nat
  | 0, _ => []
  | fuel + 1, n => if n = 0 then [] else minimalBEA fuel (n / 256) ++ [n % 256]

/-- Modelled from the claim wording for C6: "the minimal big-endian
magnitude" — the big-endian base-256 digits of `n` with no leading zero
byte (empty for 0). -/
def minimalBE (n : Nat) : List Nat := minimalBEA n n

/-- Modelled from the claim wording for C6: the smallest of the native
widths {1, 2, 4, 8} that holds `len` bytes ("padded to exactly one of the
widths {1, 2, 4, 8} bytes (3/5/6/7-byte forms never occur)"). -/
def nativeWidth (len : Nat) : Nat :=
  if len ≤ 1 then 1 else if len ≤ 2 then 2 else if len ≤ 4 then 4 else 8

/-- Modelled from the claim wording for C6, to be compared with
`bigIntEncode`: a negative value `v` is represented as magnitude `-v-1`
under the negative major type; a minimal magnitude of at most 8 bytes is
zero-padded to the smallest native width and emitted as a plain integer
(modifier 24/25/26/27 for widths 1/2/4/8), with the 1-byte case of
magnitude < 24 folded into the header byte; a longer minimal magnitude is
wrapped, exactly and with no leading zero byte, as a byte string under tag
0xc2 (non-negative) or 0xc3 (negative). -/
def claimBigIntEncode (v : Int) : List Nat :=
  let mag : Nat := if v < 0 then (-v - 1).toNat else v.toNat
  let tag : Nat := if v < 0 then 0x20 else 0x00
  let mb := minimalBE mag
  if mb.length ≤ 8 then
    let w := nativeWidth mb.length
    if w = 1 ∧ mag < 24 then [tag + mag]
    else
      (tag + (if w = 1 then 24 else if w = 2 then 25 else if w = 4 then 26 else 27)) ::
        (List.replicate (w - mb.length) 0 ++ mb)
  else (if v < 0 then 0xc3 else 0xc2) :: (encodeTagAndN 0x40 mb.length ++ mb)

/-- The zero count `padLoop` appends for a given starting length. -/
def padCount (len : Nat) : Nat :=
  if len = 3 then 1 else if len = 5 then 3 else if len = 6 then 2 else if len = 7 then 1 else 0

/-- The entry built by `CBOR.Map.set` for a key/value pair. -/
def mkEntry (kv : Value × Value) : Value × List Nat × Value := (kv.1, encode kv.1, kv.2)

/-- Strict ascending order of two map entries by the bytewise comparison of
their encoded keys. -/
def entryLt (a b : Value × List Nat × Value) : Prop := compareBytes a.2.1 b.2.1 < 0

/-- A sequence of `set(key, value)` calls against a map state; the first
failure aborts. -/
def setPairs (m : MapState) : List (Value × Value) → Except String MapState
  | [] => .ok m
  | kv :: rest =>
    match mapSet m kv.1 kv.2 with
    | (m1, none) => setPairs m1 rest
    | (_, some msg) => .error msg

/-- A map built programmatically from a fresh `new CBOR.Map()` through a
sequence of `set` calls. -/
def mapFromPairs (ps : List (Value × Value)) : Except String MapState := setPairs emptyMap ps

/-- The encoding of a map nest of depth `d`: `{0: {0: ... null ...}}`. -/
def nestBytes : Nat → List Nat
  | 0 => [0xf6]
  | d + 1 => 0xa1 :: 0x00 :: nestBytes d

/-- The value the decoder produces for `nestBytes d`. -/
def nestVal : Nat → Value
  | 0 => .null
  | d + 1 =>
    .map [(.int 0, [0], nestVal d)] (some (.int 0, [0], nestVal d)) 1 false

/-!  ## Basic facts and claim theorems -/

/-- C1: the spec claims that for every constructible Value of any kind,
decoding `encode(v)` succeeds and re-encodes identically.  The code breaks
this for three whole kinds: the decoder's float cases are commented out, so
every encoded `CBOR.Float` is fed to the length-field logic (the canonical
`f9 0000` for 0.0 trips the non-canonical-N check; `f9 3c00` for 1.0 falls
through to the unsupported-tag error); `case MT_TAG` and the non-empty
`MT_ARRAY` loop call the out-of-scope bare identifier `getObject`
(ReferenceError); `MT_STRING` references the undefined `UTF8`
(ReferenceError).  This theorem evaluates the decoder on those encodings. -/
theorem c1_roundtrip_code_bug :
    decode (encode (.float 0)) =
      .error ("Non-deterministic N encoding for tag: 0xf9") ∧
    decode (encode (.float (widen16 0x3c00))) = .error ("Unsupported tag: f9") ∧
    decode (encode (.arr [.null])) = .error ("ReferenceError: getObject is not defined") ∧
    decode (encode (.tag 0 .null)) = .error ("ReferenceError: getObject is not defined") ∧
    decode (encode (.str [0x61])) = .error ("ReferenceError: UTF8 is not defined") :=
  ⟨rfl, rfl, rfl, rfl, rfl⟩

/-- C5: the spec claims strict map decoding inserts every pair in append
mode, rejecting an out-of-order key with a non-canonical-order error.  The
code sets the *public* `deterministicMode` property of the fresh map while
`CBOR.Map.set` consults the private `#deterministicMode` field (still
false), so decoding `a2 01 f6 00 f6` (keys 1 then 0, out of order) silently
re-sorts and succeeds instead of failing; only the duplicate check of the
sorting path still fires (`a2 00 f6 00 f6`). -/
theorem c5_decode_append_mode_bug :
    decode [0xa2, 0x01, 0xf6, 0x00, 0xf6] =
      .ok (some (.map [(.int 0, [0], .null), (.int 1, [1], .null)]
        (some (.int 0, [0], .null)) 2 false)) ∧
    decode [0xa2, 0x00, 0xf6, 0x00, 0xf6] = .error ("Duplicate: ") :=
  ⟨rfl, rfl⟩

/-- C10: whenever `CBOR.Map.set` throws — invalid non-CBOR key or value,
duplicate encoded key (either insertion mode) or non-deterministic order
(append mode) — the map state is left exactly as it was: every `throw` in
the source occurs before the first write to the map. -/
theorem c10_set_failure_leaves_map_unchanged (m : MapState) (key object : JsArg)
    (msg : String) (h : (mapSetChecked m key object).2 = some msg) :
    (mapSetChecked m key object).1 = m := by
  rcases key with k | _
  · rcases object with o | _
    · simp only [mapSetChecked, cborArguentCheck] at h ⊢
      unfold mapSet at h ⊢
      rcases hr : m.root with _ | ⟨e, rest⟩ <;> simp only [hr] at h ⊢
      · simp at h
      · by_cases hd : m.deterministicMode <;> simp only [hd, if_true, if_false] at h ⊢
        · rcases hl : m.lastEntry with _ | le
          · simp only [hl]
          · simp only [hl] at h ⊢
            by_cases hc : compareBytes le.2.1 (encode k) ≥ 0
            · rw [if_pos hc]
            · rw [if_neg hc] at h
              simp at h
        · rcases hs : sortedInsert (e :: rest) (k, encode k, o) with e1 | r1 <;>
            simp only [hs] at h ⊢
          · rfl
          · simp at h
    · simp [mapSetChecked, cborArguentCheck]
  · simp [mapSetChecked, cborArguentCheck]

/-- Witness for C10 at a duplicate-key `set` on a one-entry map. -/
theorem c10_set_failure_leaves_map_unchanged_witness :
    (mapSetChecked ⟨[(.int 0, [0], .null)], some (.int 0, [0], .null), 1, false⟩
      (.cborObject (.int 0)) (.cborObject .null)).2 = some ("Duplicate: ") ∧
    (mapSetChecked ⟨[(.int 0, [0], .null)], some (.int 0, [0], .null), 1, false⟩
      (.cborObject (.int 0)) (.cborObject .null)).1 =
      ⟨[(.int 0, [0], .null)], some (.int 0, [0], .null), 1, false⟩ :=
  ⟨rfl, c10_set_failure_leaves_map_unchanged _ _ _ ("Duplicate: ") rfl⟩

/-!  ### BigInt encoding lemmas (C6, C8) -/

theorem minimalBEA_zero (f : Nat) : minimalBEA f 0 = [] := by
  cases f <;> simp [minimalBEA]

theorem leDigitsA_eq_minimalBEA (f : Nat) : ∀ n, 0 < n → n ≤ f →
    leDigitsA f n = (minimalBEA f n).reverse := by
  induction f with
  | zero => intro n h1 h2; omega
  | succ f ih =>
    intro n h1 h2
    simp only [leDigitsA, minimalBEA, if_neg (show ¬ n = 0 by omega)]
    by_cases hq : n / 256 = 0
    · simp [hq, minimalBEA_zero]
    · have hlt : n / 256 < n := Nat.div_lt_self h1 (by omega)
      rw [if_neg hq, ih (n / 256) (Nat.pos_of_ne_zero hq) (by omega)]
      simp

theorem leDigits_eq_minimalBE (n : Nat) (h : 0 < n) :
    leDigits n = (minimalBE n).reverse :=
  leDigitsA_eq_minimalBEA n n h le_rfl

theorem beVal_append_singleton (xs : List Nat) (b : Nat) :
    beVal (xs ++ [b]) = beVal xs * 256 + b := by
  simp [beVal, List.foldl_append]

theorem beVal_minimalBEA (f : Nat) : ∀ n, n ≤ f → beVal (minimalBEA f n) = n := by
  induction f with
  | zero => intro n h; interval_cases n; simp [minimalBEA, beVal]
  | succ f ih =>
    intro n h
    by_cases h0 : n = 0
    · simp [h0, minimalBEA, beVal]
    · have hlt : n / 256 < n := Nat.div_lt_self (Nat.pos_of_ne_zero h0) (by omega)
      simp only [minimalBEA, if_neg h0]
      rw [beVal_append_singleton, ih (n / 256) (by omega)]
      omega

theorem beVal_minimalBE (n : Nat) : beVal (minimalBE n) = n :=
  beVal_minimalBEA n n le_rfl

theorem minimalBEA_lt (f : Nat) : ∀ n, n ≤ f → n < 256 ^ (minimalBEA f n).length := by
  induction f with
  | zero => intro n h; interval_cases n; simp [minimalBEA]
  | succ f ih =>
    intro n h
    by_cases h0 : n = 0
    · simp [h0, minimalBEA_zero]
    · have hlt : n / 256 < n := Nat.div_lt_self (Nat.pos_of_ne_zero h0) (by omega)
      simp only [minimalBEA, if_neg h0, List.length_append, List.length_cons,
        List.length_nil]
      have hq := ih (n / 256) (by omega)
      have : 256 ^ ((minimalBEA f (n / 256)).length + 0 + 1) =
          256 ^ (minimalBEA f (n / 256)).length * 256 := by ring
      have hmul : n < (n / 256 + 1) * 256 := by omega
      calc n < (n / 256 + 1) * 256 := hmul
        _ ≤ 256 ^ (minimalBEA f (n / 256)).length * 256 := by
              have : n / 256 + 1 ≤ 256 ^ (minimalBEA f (n / 256)).length := hq
              exact Nat.mul_le_mul_right 256 this
        _ = 256 ^ ((minimalBEA f (n / 256)).length + 0 + 1) := by ring

theorem minimalBE_lt (n : Nat) : n < 256 ^ (minimalBE n).length :=
  minimalBEA_lt n n le_rfl

theorem minimalBEA_ge (f : Nat) : ∀ n, 0 < n → n ≤ f →
    256 ^ ((minimalBEA f n).length - 1) ≤ n := by
  induction f with
  | zero => intro n h1 h2; omega
  | succ f ih =>
    intro n h1 h2
    simp only [minimalBEA, if_neg (show ¬ n = 0 by omega), List.length_append,
      List.length_cons, List.length_nil]
    by_cases hq : n / 256 = 0
    · rw [hq, minimalBEA_zero]
      simpa using h1
    · have hlt : n / 256 < n := Nat.div_lt_self h1 (by omega)
      have hih := ih (n / 256) (Nat.pos_of_ne_zero hq) (by omega)
      have hpos : 1 ≤ (minimalBEA f (n / 256)).length := by
        rcases hh : minimalBEA f (n / 256) with _ | _
        · exfalso
          have := beVal_minimalBEA f (n / 256) (by omega)
          rw [hh] at this
          simp [beVal] at this
          omega
        · simp
      have h256 : 256 ^ ((minimalBEA f (n / 256)).length - 1) * 256 ≤ n := by
        calc 256 ^ ((minimalBEA f (n / 256)).length - 1) * 256 ≤ (n / 256) * 256 :=
              Nat.mul_le_mul_right 256 hih
          _ ≤ n := Nat.div_mul_le_self n 256
      calc 256 ^ ((minimalBEA f (n / 256)).length + 0 + 1 - 1)
          = 256 ^ ((minimalBEA f (n / 256)).length - 1) * 256 := by
            rcases Nat.exists_eq_add_of_le hpos with ⟨k, hk⟩
            have e1 : (minimalBEA f (n / 256)).length + 0 + 1 - 1 =
                ((minimalBEA f (n / 256)).length - 1) + 1 := by omega
            rw [e1, pow_succ]
        _ ≤ n := h256

theorem minimalBE_ge (n : Nat) (h : 0 < n) : 256 ^ ((minimalBE n).length - 1) ≤ n :=
  minimalBEA_ge n n h le_rfl

theorem minimalBEA_head (f : Nat) : ∀ n, 0 < n → n ≤ f →
    (minimalBEA f n).headD 0 ≠ 0 := by
  induction f with
  | zero => intro n h1 h2; omega
  | succ f ih =>
    intro n h1 h2
    simp only [minimalBEA, if_neg (show ¬ n = 0 by omega)]
    by_cases hq : n / 256 = 0
    · have hmod : n % 256 = n := by omega
      rw [hq, minimalBEA_zero]
      simp only [List.nil_append, List.headD_cons, hmod]
      omega
    · have hlt : n / 256 < n := Nat.div_lt_self h1 (by omega)
      have hih := ih (n / 256) (Nat.pos_of_ne_zero hq) (by omega)
      rcases hh : minimalBEA f (n / 256) with _ | ⟨b, rest⟩
      · rw [hh] at hih; simp at hih
      · rw [hh] at hih
        simpa using hih

theorem minimalBE_head (n : Nat) (h : 0 < n) : (minimalBE n).headD 0 ≠ 0 :=
  minimalBEA_head n n h le_rfl

theorem padLoop_eq (a : List Nat) : padLoop a = a ++ List.replicate (padCount a.length) 0 := by
  rcases hl8 : a.length with _ | _ | _ | _ | _ | _ | _ | _ | l8
  all_goals simp only [padLoop, padLoopA, padCount, hl8, List.length_append,
    List.length_cons, List.length_nil, List.length_replicate]
  all_goals norm_num
  · simp [List.append_assoc]
  · simp [List.append_assoc]
  · simp [List.append_assoc]

theorem lor_byte_small : ∀ x, x < 32 → (0 ||| x) % 256 = 0 + x ∧ (32 ||| x) % 256 = 32 + x := by
  decide

theorem minimalBE_length_pos (mag : Nat) (h : 0 < mag) : 1 ≤ (minimalBE mag).length := by
  rcases hh : minimalBE mag with _ | _
  · exfalso
    have := beVal_minimalBE mag
    rw [hh] at this
    simp [beVal] at this
    omega
  · simp

theorem padCount_of_gt (L : Nat) (h : 8 < L) : padCount L = 0 := by
  simp only [padCount]
  split_ifs <;> omega

/-- C6: `CBOR.BigInt.encode` agrees, for every value, with the claim:
negative `v` is represented as magnitude `-v-1` under the negative major
type; a minimal big-endian magnitude of at most 8 bytes is padded to the
smallest width in {1, 2, 4, 8} and emitted as a plain integer (the 1-byte
magnitude < 24 folds into the header byte); a longer magnitude is wrapped
exactly, with no leading zero byte, as a byte string under tag 0xc2/0xc3. -/
theorem c6_bigint_encoding (v : Int) : bigIntEncode v = claimBigIntEncode v := by
  have core : ∀ t : Nat, t = 0 ∨ t = 32 → ∀ mag : Nat,
      (let byteArray := (padLoop (leDigits mag)).reverse
       if byteArray.length ≤ 8 then
         if byteArray.length = 1 ∧ byteArray.headD 0 < 24 then [(t ||| byteArray.headD 0) % 256]
         else ((t ||| modLoop 24 byteArray.length) % 256) :: byteArray
       else (if t = 32 then 0xc3 else 0xc2) :: bytesItemEncode byteArray) =
      (let mb := minimalBE mag
       if mb.length ≤ 8 then
         let w := nativeWidth mb.length
         if w = 1 ∧ mag < 24 then [t + mag]
         else
           (t + (if w = 1 then 24 else if w = 2 then 25 else if w = 4 then 26 else 27)) ::
             (List.replicate (w - mb.length) 0 ++ mb)
       else (if t = 32 then 0xc3 else 0xc2) :: (encodeTagAndN 0x40 mb.length ++ mb)) := by
    intro t ht mag
    rcases Nat.eq_zero_or_pos mag with rfl | hpos
    · rcases ht with rfl | rfl <;> rfl
    · have hld : leDigits mag = (minimalBE mag).reverse := leDigits_eq_minimalBE mag hpos
      have hval : beVal (minimalBE mag) = mag := beVal_minimalBE mag
      have hL1 : 1 ≤ (minimalBE mag).length := minimalBE_length_pos mag hpos
      have hlt : mag < 256 ^ (minimalBE mag).length := minimalBE_lt mag
      have hge : 256 ^ ((minimalBE mag).length - 1) ≤ mag := minimalBE_ge mag hpos
      simp only [hld, padLoop_eq, List.length_reverse, List.reverse_append,
        List.reverse_reverse, List.reverse_replicate]
      generalize hmb : minimalBE mag = mb at *
      rcases le_or_lt mb.length 8 with hle | hgt
      · have hcases : mb.length = 1 ∨ mb.length = 2 ∨ mb.length = 3 ∨ mb.length = 4 ∨
            mb.length = 5 ∨ mb.length = 6 ∨ mb.length = 7 ∨ mb.length = 8 := by omega
        rcases hcases with h | h | h | h | h | h | h | h
        · -- one minimal byte: mb = [b] with b = mag < 256
          obtain ⟨b, rfl⟩ := List.length_eq_one.mp h
          have hb : b = mag := by simpa [beVal] using hval
          subst hb
          have h256 : b < 256 := by simpa using hlt
          by_cases h24 : b < 24
          · have hl0 := (lor_byte_small b (by omega)).1
            have hl32 := (lor_byte_small b (by omega)).2
            rcases ht with rfl | rfl <;>
              simp [padCount, nativeWidth, h24, hl0, hl32, Nat.mod_eq_of_lt h256]
          · rcases ht with rfl | rfl <;>
              simp [padCount, nativeWidth, h24, modLoop, modLoopA,
                Nat.mod_eq_of_lt h256]
        all_goals
          rcases ht with rfl | rfl <;>
            simp [h, padCount, nativeWidth, modLoop, modLoopA]
      · have hpc : padCount mb.length = 0 := padCount_of_gt mb.length hgt
        have hn8 : ¬ mb.length ≤ 8 := by omega
        simp only [hpc, List.replicate_zero, List.nil_append, if_neg hn8]
        rfl
  unfold bigIntEncode claimBigIntEncode
  by_cases hv : v < 0
  · simpa only [if_pos hv] using core 32 (Or.inr rfl) (-v - 1).toNat
  · simpa only [if_neg hv] using core 0 (Or.inl rfl) v.toNat

/-- C8, counterexample: the claim says an integer one past
`Number.MAX_SAFE_INTEGER` (2^53) "produces the bignum tag form, not the
native integer form".  The code encodes it in the *native* 8-byte integer
form — header 0x1b, not the bignum tag 0xc2 — because its minimal magnitude
is 7 bytes, which is padded to 8 and emitted as a plain integer. -/
theorem c8_threshold_counterexample :
    bigIntEncode ((2 : Int) ^ 53) = [0x1b, 0x00, 0x20, 0, 0, 0, 0, 0, 0] ∧
    (bigIntEncode ((2 : Int) ^ 53)).head? ≠ some 0xc2 := by
  constructor
  · rfl
  · decide

/-- C8 as amended: 2^53 encodes in the native 8-byte integer form (header
0x1b with the zero-padded magnitude); the bignum tag 0xc2 appears only once
the minimal magnitude exceeds 8 bytes, and then the wrapped magnitude bytes
carry no leading zero byte. -/
theorem c8_bigint_threshold_amended :
    bigIntEncode ((2 : Int) ^ 53) = [0x1b, 0x00, 0x20, 0, 0, 0, 0, 0, 0] ∧
    (∀ v : Int, 0 ≤ v → 9 ≤ (minimalBE v.toNat).length →
      bigIntEncode v =
        0xc2 :: (encodeTagAndN 0x40 (minimalBE v.toNat).length ++ minimalBE v.toNat) ∧
      (minimalBE v.toNat).headD 0 ≠ 0) := by
  refine ⟨rfl, fun v hv h9 => ?_⟩
  have hpos : 0 < v.toNat := by
    by_contra h0
    have : v.toNat = 0 := by omega
    rw [this] at h9
    simp [minimalBE, minimalBEA] at h9
  have hvneg : ¬ v < 0 := by omega
  have hld : leDigits v.toNat = (minimalBE v.toNat).reverse :=
    leDigits_eq_minimalBE v.toNat hpos
  have hpc : padCount (minimalBE v.toNat).length = 0 :=
    padCount_of_gt (minimalBE v.toNat).length (by omega)
  have hn8 : ¬ (minimalBE v.toNat).length ≤ 8 := by omega
  constructor
  · simp only [bigIntEncode, if_neg hvneg, hld, padLoop_eq, List.length_reverse, hpc,
      List.replicate_zero, List.append_nil, List.reverse_reverse, if_neg hn8]
    rfl
  · exact minimalBE_head v.toNat hpos

/-- Witness for C8 at `v = 2^64`, the smallest non-negative bignum-tagged
magnitude. -/
theorem c8_bigint_threshold_amended_witness :
    bigIntEncode ((2 : Int) ^ 64) =
      0xc2 :: (encodeTagAndN 0x40 (minimalBE ((2 : Int) ^ 64).toNat).length ++
        minimalBE ((2 : Int) ^ 64).toNat) ∧
    (minimalBE ((2 : Int) ^ 64).toNat).headD 0 ≠ 0 :=
  c8_bigint_threshold_amended.2 ((2 : Int) ^ 64) (by decide) (by decide)

/-!  ### Bytewise key order (C3) -/

theorem compareBytes_cons_eq (x y : Nat) (xs ys : List Nat) (h : (x : Int) - y = 0) :
    compareBytes (x :: xs) (y :: ys) = compareBytes xs ys := by
  simp [compareBytes, h]

theorem compareBytes_cons_ne (x y : Nat) (xs ys : List Nat) (h : (x : Int) - y ≠ 0) :
    compareBytes (x :: xs) (y :: ys) = (x : Int) - y := by
  simp [compareBytes, h]

theorem compareBytes_nil_cons (z : Nat) (zs : List Nat) : compareBytes [] (z :: zs) < 0 := by
  simp only [compareBytes, List.length_nil, List.length_cons]
  omega

theorem compareBytes_cons_nil (z : Nat) (zs : List Nat) : 0 < compareBytes (z :: zs) [] := by
  simp only [compareBytes, List.length_nil, List.length_cons]
  omega

theorem compareBytes_neg (a : List Nat) : ∀ b, compareBytes a b = -compareBytes b a := by
  induction a with
  | nil => intro b; cases b <;> simp [compareBytes]
  | cons x xs ih =>
    intro b
    cases b with
    | nil => simp [compareBytes]
    | cons y ys =>
      by_cases hxy : (x : Int) - y = 0
      · rw [compareBytes_cons_eq _ _ _ _ hxy, compareBytes_cons_eq _ _ _ _ (by omega),
          ih ys]
      · rw [compareBytes_cons_ne _ _ _ _ hxy, compareBytes_cons_ne _ _ _ _ (by omega)]
        omega

theorem compareBytes_eq_zero_iff (a : List Nat) : ∀ b, compareBytes a b = 0 ↔ a = b := by
  induction a with
  | nil =>
    intro b
    cases b with
    | nil => simp [compareBytes]
    | cons y ys =>
      constructor
      · intro h
        exact absurd h (by have := compareBytes_nil_cons y ys; omega)
      · intro h; cases h
  | cons x xs ih =>
    intro b
    cases b with
    | nil =>
      constructor
      · intro h
        exact absurd h (by have := compareBytes_cons_nil x xs; omega)
      · intro h; cases h
    | cons y ys =>
      by_cases hxy : (x : Int) - y = 0
      · have hx : x = y := by omega
        subst hx
        rw [compareBytes_cons_eq _ _ _ _ hxy]
        simp [ih ys]
      · rw [compareBytes_cons_ne _ _ _ _ hxy]
        constructor
        · intro h; exact absurd h hxy
        · intro h
          cases h
          omega

theorem compareBytes_trans (a : List Nat) : ∀ b c, compareBytes a b < 0 →
    compareBytes b c < 0 → compareBytes a c < 0 := by
  induction a with
  | nil =>
    intro b c hab hbc
    cases c with
    | nil =>
      cases b with
      | nil => simp [compareBytes] at hab
      | cons y ys => exact absurd hbc (by have := compareBytes_cons_nil y ys; omega)
    | cons z zs => exact compareBytes_nil_cons z zs
  | cons x xs ih =>
    intro b c hab hbc
    cases b with
    | nil => exact absurd hab (by have := compareBytes_cons_nil x xs; omega)
    | cons y ys =>
      cases c with
      | nil => exact absurd hbc (by have := compareBytes_cons_nil y ys; omega)
      | cons z zs =>
        by_cases hxy : (x : Int) - y = 0 <;> by_cases hyz : (y : Int) - z = 0
        · rw [compareBytes_cons_eq _ _ _ _ hxy] at hab
          rw [compareBytes_cons_eq _ _ _ _ hyz] at hbc
          rw [compareBytes_cons_eq _ _ _ _ (by omega)]
          exact ih ys zs hab hbc
        · rw [compareBytes_cons_eq _ _ _ _ hxy] at hab
          rw [compareBytes_cons_ne _ _ _ _ hyz] at hbc
          rw [compareBytes_cons_ne _ _ _ _ (by omega)]
          omega
        · rw [compareBytes_cons_ne _ _ _ _ hxy] at hab
          rw [compareBytes_cons_eq _ _ _ _ hyz] at hbc
          rw [compareBytes_cons_ne _ _ _ _ (by omega)]
          omega
        · rw [compareBytes_cons_ne _ _ _ _ hxy] at hab
          rw [compareBytes_cons_ne _ _ _ _ hyz] at hbc
          by_cases hxz : (x : Int) - z = 0
          · exfalso; omega
          · rw [compareBytes_cons_ne _ _ _ _ hxz]
            omega

theorem entryLt_trans {a b c : Value × List Nat × Value} (h1 : entryLt a b)
    (h2 : entryLt b c) : entryLt a c :=
  compareBytes_trans a.2.1 b.2.1 c.2.1 h1 h2

theorem entryLt_asymm {a b : Value × List Nat × Value} (h1 : entryLt a b)
    (h2 : entryLt b a) : False := by
  have := compareBytes_neg a.2.1 b.2.1
  unfold entryLt at h1 h2
  omega

theorem sortedInsert_perm : ∀ (l : List (Value × List Nat × Value)) e l2,
    sortedInsert l e = .ok l2 → l2.Perm (e :: l) := by
  intro l
  induction l with
  | nil =>
    intro e l2 h
    simp only [sortedInsert, Except.ok.injEq] at h
    subst h
    exact List.Perm.refl _
  | cons a rest ih =>
    intro e l2 h
    simp only [sortedInsert] at h
    split_ifs at h with h0 hgt
    · cases h
      exact List.Perm.refl _
    · rcases hrec : sortedInsert rest e with msg | tail <;> rw [hrec] at h
      · simp [Except.map] at h
      · simp only [Except.map, Except.ok.injEq] at h
        subst h
        exact (((ih e tail hrec).cons a).trans (List.Perm.swap e a rest)).symm.symm

theorem sortedInsert_ok : ∀ (l : List (Value × List Nat × Value)) e,
    (∀ x ∈ l, compareBytes x.2.1 e.2.1 ≠ 0) → ∃ l2, sortedInsert l e = .ok l2 := by
  intro l
  induction l with
  | nil => intro e _; exact ⟨[e], rfl⟩
  | cons a rest ih =>
    intro e hne
    simp only [sortedInsert]
    rw [if_neg (hne a (by simp))]
    by_cases hgt : compareBytes a.2.1 e.2.1 > 0
    · rw [if_pos hgt]
      exact ⟨e :: a :: rest, rfl⟩
    · rw [if_neg hgt]
      obtain ⟨tail, htail⟩ := ih e (fun x hx => hne x (by simp [hx]))
      exact ⟨a :: tail, by rw [htail]; rfl⟩

theorem sortedInsert_pairwise : ∀ (l : List (Value × List Nat × Value)) e l2,
    l.Pairwise entryLt → sortedInsert l e = .ok l2 → l2.Pairwise entryLt := by
  intro l
  induction l with
  | nil =>
    intro e l2 _ h
    simp only [sortedInsert, Except.ok.injEq] at h
    subst h
    simp
  | cons a rest ih =>
    intro e l2 hp h
    simp only [sortedInsert] at h
    split_ifs at h with h0 hgt
    · cases h
      have hea : entryLt e a := by
        have := compareBytes_neg e.2.1 a.2.1
        unfold entryLt
        omega
      refine List.Pairwise.cons ?_ hp
      intro x hx
      rcases List.mem_cons.mp hx with rfl | hx2
      · exact hea
      · exact entryLt_trans hea ((List.pairwise_cons.mp hp).1 x hx2)
    · rcases hrec : sortedInsert rest e with msg | tail <;> rw [hrec] at h
      · simp [Except.map] at h
      · simp only [Except.map, Except.ok.injEq] at h
        subst h
        have hprest := (List.pairwise_cons.mp hp).2
        have hafirst := (List.pairwise_cons.mp hp).1
        refine List.Pairwise.cons ?_ (ih e tail hprest hrec)
        intro x hx
        have hmem : x ∈ e :: rest := (sortedInsert_perm rest e tail hrec).mem_iff.mp hx
        rcases List.mem_cons.mp hmem with rfl | hx2
        · unfold entryLt
          omega
        · exact hafirst x hx2

theorem sortedInsert_dup : ∀ (l : List (Value × List Nat × Value)) e,
    l.Pairwise entryLt → (∃ x ∈ l, compareBytes x.2.1 e.2.1 = 0) →
    sortedInsert l e = .error ("Duplicate: ") := by
  intro l
  induction l with
  | nil => intro e _ h; simp at h
  | cons a rest ih =>
    intro e hp h
    simp only [sortedInsert]
    by_cases h0 : compareBytes a.2.1 e.2.1 = 0
    · rw [if_pos h0]
    · rw [if_neg h0]
      obtain ⟨x, hxmem, hx0⟩ := h
      rcases List.mem_cons.mp hxmem with rfl | hx2
      · exact absurd hx0 h0
      · have hax : entryLt a x := (List.pairwise_cons.mp hp).1 x hx2
        have hxe : x.2.1 = e.2.1 := (compareBytes_eq_zero_iff x.2.1 e.2.1).mp hx0
        have hae : compareBytes a.2.1 e.2.1 < 0 := by
          have := hax
          unfold entryLt at this
          rw [hxe] at this
          exact this
        rw [if_neg (by omega)]
        rw [ih e (List.pairwise_cons.mp hp).2 ⟨x, hx2, hx0⟩]
        rfl

theorem ne_symmetric : Symmetric (fun a b : List Nat => a ≠ b) := fun _ _ h => h.symm

theorem setPairs_ok : ∀ (ps : List (Value × Value)) (m : MapState),
    m.deterministicMode = false →
    m.numberOfEntries = m.root.length →
    m.root.Pairwise entryLt →
    ((m.root.map (fun en => en.2.1) ++ ps.map (fun kv => encode kv.1)).Pairwise (· ≠ ·)) →
    ∃ m2, setPairs m ps = .ok m2 ∧ m2.deterministicMode = false ∧
      m2.numberOfEntries = m2.root.length ∧ m2.root.Pairwise entryLt ∧
      m2.root.Perm (m.root ++ ps.map mkEntry) := by
  intro ps
  induction ps with
  | nil =>
    intro m hdet hcnt hpw _
    exact ⟨m, rfl, hdet, hcnt, hpw, by simp⟩
  | cons kv rest ih =>
    intro m hdet hcnt hpw hdist
    rcases hr : m.root with _ | ⟨a, arest⟩
    · -- first key, taken as is
      have hm1 : mapSet m kv.1 kv.2 =
          (⟨[mkEntry kv], some (mkEntry kv), m.numberOfEntries + 1,
            m.deterministicMode⟩, none) := by
        rw [mapSet.eq_def, hr]
        rfl
      obtain ⟨m2, hset, h1, h2, h3, h4⟩ := ih
        ⟨[mkEntry kv], some (mkEntry kv), m.numberOfEntries + 1, m.deterministicMode⟩
        hdet
        (by rw [hr] at hcnt; simp at hcnt; simp [hcnt])
        (by simp)
        (by
          rw [hr] at hdist
          simpa [mkEntry] using hdist)
      refine ⟨m2, ?_, h1, h2, h3, ?_⟩
      · simp only [setPairs, hm1]
        exact hset
      · simpa using h4
    · -- second key etc.: the sorting path
      have hkeys : ∀ x ∈ m.root, compareBytes x.2.1 (mkEntry kv).2.1 ≠ 0 := by
        intro x hx h0
        have hxe : x.2.1 = encode kv.1 := (compareBytes_eq_zero_iff _ _).mp h0
        exact (List.pairwise_append.mp hdist).2.2 x.2.1
          (List.mem_map_of_mem (fun en => en.2.1) hx) (encode kv.1) (by simp) hxe
      obtain ⟨l2, hl2⟩ := sortedInsert_ok m.root (mkEntry kv) hkeys
      have hpw2 := sortedInsert_pairwise m.root (mkEntry kv) l2 hpw hl2
      have hperm2 := sortedInsert_perm m.root (mkEntry kv) l2 hl2
      have hm1 : mapSet m kv.1 kv.2 =
          (⟨l2, some (mkEntry kv), m.numberOfEntries + 1, false⟩, none) := by
        rw [hr] at hl2
        simp only [mapSet.eq_def, hr, hdet, Bool.false_eq_true, if_false,
          show (kv.1, encode kv.1, kv.2) = mkEntry kv from rfl, hl2]
      obtain ⟨m2, hset, h1, h2, h3, h4⟩ := ih
        ⟨l2, some (mkEntry kv), m.numberOfEntries + 1, false⟩
        rfl
        (by
          have h5 := hperm2.length_eq
          simp only [List.length_cons] at h5
          simp only []
          omega)
        hpw2
        (by
          simp only []
          have hpk : (l2.map (fun en => en.2.1) ++ rest.map (fun kv => encode kv.1)).Perm
              (m.root.map (fun en => en.2.1) ++
                (kv :: rest).map (fun kv => encode kv.1)) := by
            refine List.Perm.trans (List.Perm.append_right _ (hperm2.map (fun en => en.2.1))) ?_
            simp only [List.map_cons, mkEntry, List.cons_append]
            exact List.perm_middle.symm
          exact ((List.Perm.pairwise_iff (fun h => Ne.symm h) hpk).mpr hdist))
      refine ⟨m2, ?_, h1, h2, h3, ?_⟩
      · simp only [setPairs, hm1]
        exact hset
      · refine h4.trans ?_
        rw [hr] at hperm2
        refine List.Perm.trans (List.Perm.append_right _ hperm2) ?_
        show (mkEntry kv :: ((a :: arest) ++ List.map mkEntry rest)).Perm
          ((a :: arest) ++ mkEntry kv :: List.map mkEntry rest)
        exact List.perm_middle.symm

/-- C3: a map built programmatically from a fresh `new CBOR.Map()` through
any sequence of `set()` calls with pairwise distinct encoded keys succeeds
and ends up with its entries sorted ascending by the bytewise comparison of
their encoded keys; the resulting entry list -- and hence `encode()` --
depends only on the set of pairs inserted, not on the insertion order; a
`set()` whose key encoding equals an existing entry's encoded key leaves
the map unchanged and throws the duplicate-key error; and inserting
`Int(2)` then `Int(1)` encodes in the order `{1: null, 2: null}`
(`a201f602f6`). -/
theorem c3_map_sorted_insertion :
    (∀ ps : List (Value × Value),
      (ps.map (fun kv => encode kv.1)).Pairwise (fun a b => a ≠ b) →
      ∃ m, mapFromPairs ps = .ok m ∧ m.root.Pairwise entryLt ∧
        m.root.Perm (ps.map mkEntry)) ∧
    (∀ ps qs : List (Value × Value),
      (ps.map (fun kv => encode kv.1)).Pairwise (fun a b => a ≠ b) →
      ps.Perm qs →
      ∀ m1 m2, mapFromPairs ps = .ok m1 → mapFromPairs qs = .ok m2 →
        m1.root = m2.root ∧ encode m1.toValue = encode m2.toValue) ∧
    (∀ (m : MapState) (key object : Value),
      m.deterministicMode = false →
      m.root.Pairwise entryLt →
      (∃ x ∈ m.root, x.2.1 = encode key) →
      mapSet m key object = (m, some ("Duplicate: "))) ∧
    (mapFromPairs [(.int 2, .null), (.int 1, .null)]).map
      (fun m => encode m.toValue) = .ok [0xa2, 0x01, 0xf6, 0x02, 0xf6] := by
  have main : ∀ ps : List (Value × Value),
      (ps.map (fun kv => encode kv.1)).Pairwise (fun a b => a ≠ b) →
      ∃ m, mapFromPairs ps = .ok m ∧ m.deterministicMode = false ∧
        m.numberOfEntries = m.root.length ∧ m.root.Pairwise entryLt ∧
        m.root.Perm (ps.map mkEntry) := by
    intro ps hd
    obtain ⟨m2, hset, h1, h2, h3, h4⟩ := setPairs_ok ps emptyMap rfl rfl
      (by simp [emptyMap]) (by simpa [emptyMap] using hd)
    exact ⟨m2, hset, h1, h2, h3, by simpa [emptyMap] using h4⟩
  refine ⟨?_, ?_, ?_, ?_⟩
  · intro ps hd
    obtain ⟨m, hset, _, _, h3, h4⟩ := main ps hd
    exact ⟨m, hset, h3, h4⟩
  · intro ps qs hd hperm m1 m2 h1 h2
    obtain ⟨m1x, hset1, hdet1, hcnt1, hsort1, hperm1⟩ := main ps hd
    have hd2 : (qs.map (fun kv => encode kv.1)).Pairwise (fun a b => a ≠ b) :=
      (List.Perm.pairwise_iff (fun h => Ne.symm h) (hperm.map _)).mp hd
    obtain ⟨m2x, hset2, hdet2, hcnt2, hsort2, hperm2⟩ := main qs hd2
    rw [h1] at hset1
    rw [h2] at hset2
    have e1 : m1 = m1x := Except.ok.inj hset1
    have e2 : m2 = m2x := Except.ok.inj hset2
    subst e1
    subst e2
    haveI : IsAntisymm (Value × List Nat × Value) entryLt :=
      ⟨fun a b ha hb => (entryLt_asymm ha hb).elim⟩
    have hroot : m1.root = m2.root := by
      refine List.eq_of_perm_of_sorted ?_ hsort1 hsort2
      exact hperm1.trans ((hperm.map mkEntry).trans hperm2.symm)
    have hcnt : m1.numberOfEntries = m2.numberOfEntries := by
      rw [hcnt1, hcnt2, hroot]
    exact ⟨hroot, by simp only [MapState.toValue, encode, hroot, hcnt]⟩
  · intro m key object hdet hsort hdup
    obtain ⟨x, hxmem, hxeq⟩ := hdup
    have hzero : compareBytes x.2.1 (encode key) = 0 :=
      (compareBytes_eq_zero_iff _ _).mpr hxeq
    have herr := sortedInsert_dup m.root (key, encode key, object) hsort ⟨x, hxmem, hzero⟩
    rcases hr : m.root with _ | ⟨a, arest⟩
    · rw [hr] at hxmem
      simp at hxmem
    · rw [hr] at herr
      simp only [mapSet.eq_def, hr, hdet, Bool.false_eq_true, if_false, herr]
  · rfl

theorem c3_map_sorted_insertion_witness :
    mapSet ⟨[(.int 1, [0x01], .null)], some (.int 1, [0x01], .null), 1, false⟩
        (.int 1) .null =
      (⟨[(.int 1, [0x01], .null)], some (.int 1, [0x01], .null), 1, false⟩,
        some ("Duplicate: ")) :=
  c3_map_sorted_insertion.2.2.1 _ (.int 1) .null rfl (by simp)
    ⟨(.int 1, [0x01], .null), by simp, rfl⟩


/-- `Except` bind on a success reduces to the continuation. -/
theorem except_bind_ok {α β : Type} (a : α) (f : α → Except String β) :
    ((Except.ok a : Except String α) >>= f) = f a := rfl

/-- `Except` bind on an error short-circuits. -/
theorem except_bind_error {α β : Type} (e : String) (f : α → Except String β) :
    ((Except.error e : Except String α) >>= f) = .error e := rfl

/-- `Except` bind on a `pure` reduces to the continuation. -/
theorem except_pure_bind {α β : Type} (a : α) (f : α → Except String β) :
    ((pure a : Except String α) >>= f) = f a := rfl

/-- `readByte` at a cursor with at least one byte left returns that byte
and advances the cursor. -/
theorem readByte_at (b : Nat) (pre post cb : List Nat) (c : Nat)
    (seq det cmk afb : Bool) (hcb : cb = pre ++ b :: post) (hc : c = pre.length) :
    readByte ⟨cb, c, seq, det, cmk, afb⟩ =
      .ok (b, ⟨cb, c + 1, seq, det, cmk, false⟩) := by
  subst hcb
  subst hc
  have hb : (pre ++ b :: post).getD pre.length 0 = b := by
    rw [List.getD_eq_getElem?_getD, List.getElem?_append_right (Nat.le_refl _)]
    simp
  unfold readByte
  rw [if_neg (by simp only [List.length_append, List.length_cons]; omega), hb]

/-- The extension-field loop reads exactly the next `ext.length` bytes and
folds them big-endian onto the accumulator. -/
theorem readChunk_at (ext : List Nat) : ∀ (acc : Nat) (pre post cb : List Nat)
    (c : Nat) (seq det cmk : Bool), cb = pre ++ ext ++ post → c = pre.length →
    readChunk ext.length acc ⟨cb, c, seq, det, cmk, false⟩ =
      .ok (ext.foldl (fun a b => a * 256 + b) acc,
        ⟨cb, c + ext.length, seq, det, cmk, false⟩) := by
  induction ext with
  | nil =>
    intro acc pre post cb c seq det cmk hcb hc
    simp [readChunk]
  | cons b bs ih =>
    intro acc pre post cb c seq det cmk hcb hc
    simp only [List.length_cons]
    simp only [readChunk]
    rw [readByte_at b pre (bs ++ post) cb c seq det cmk false (by simp [hcb]) hc]
    simp only [except_bind_ok]
    rw [ih (acc * 256 + b) (pre ++ [b]) post cb (c + 1) seq det cmk
      (by simp [hcb]) (by simp [hc])]
    simp only [List.foldl_cons]
    have e : c + (bs.length + 1) = c + 1 + bs.length := by omega
    rw [e]

/-- Strict decoding of a header whose {1,2,4,8}-byte extension field holds
a value representable in a smaller width stops with the non-canonical-N
error, whatever follows the header. -/
theorem getObject_ext_strict (fuel t : Nat) (ext rest : List Nat)
    (seq cmk afb : Bool)
    (hn1 : 24 ≤ t &&& 0x1f) (hn2 : t &&& 0x1f ≤ 27)
    (hlen : ext.length = 1 <<< ((t &&& 0x1f) - 24))
    (hnc : beVal ext < 24 ∨ 0xffffffff <<< ((ext.length >>> 1) * 8) &&& beVal ext = 0) :
    getObject (fuel + 1) ⟨t :: ext ++ rest, 0, seq, true, cmk, afb⟩ =
      .error ("Non-deterministic N encoding for tag: 0x" ++ twoHex t) := by
  have hc2 : ¬ (t = 0xc3 ∨ t = 0xc2) := by
    rintro (rfl | rfl) <;> revert hn1 <;> decide
  have hf6 : ¬ t = 0xf6 := by rintro rfl; revert hn1; decide
  have hf5 : ¬ (t = 0xf5 ∨ t = 0xf4) := by
    rintro (rfl | rfl) <;> revert hn1 <;> decide
  simp only [getObject]
  rw [readByte_at t [] (ext ++ rest) _ 0 seq true cmk afb (by simp) rfl]
  simp only [except_bind_ok]
  rw [if_neg hc2, if_neg hf6, if_neg hf5]
  rw [if_neg (show ¬ t &&& 0x1f > 27 by omega),
    if_pos (show t &&& 0x1f > 23 by omega)]
  rw [← hlen]
  rw [readChunk_at ext 0 [t] rest _ (0 + 1) seq true cmk (by simp) rfl]
  simp only [except_bind_ok]
  simp only [beVal] at hnc
  simp only [and_true]
  rw [if_pos hnc]
  rw [except_bind_error]

/-- Lenient decoding of a major-type-0 item with any {1,2,4,8}-byte
extension field succeeds with the encoded value (safe-integer range). -/
theorem getObject_ext_lenient (fuel t : Nat) (ext : List Nat)
    (seq cmk afb : Bool)
    (hn1 : 24 ≤ t &&& 0x1f) (hn2 : t &&& 0x1f ≤ 27)
    (hlen : ext.length = 1 <<< ((t &&& 0x1f) - 24))
    (h0 : t &&& 0xe0 = 0)
    (hsafe : beVal ext ≤ maxSafeInteger) :
    getObject (fuel + 1) ⟨t :: ext, 0, seq, false, cmk, afb⟩ =
      .ok (.int (beVal ext), ⟨t :: ext, 0 + 1 + ext.length, seq, false, cmk, false⟩) := by
  have hc2 : ¬ (t = 0xc3 ∨ t = 0xc2) := by
    rintro (rfl | rfl) <;> revert hn1 <;> decide
  have hf6 : ¬ t = 0xf6 := by rintro rfl; revert hn1; decide
  have hf5 : ¬ (t = 0xf5 ∨ t = 0xf4) := by
    rintro (rfl | rfl) <;> revert hn1 <;> decide
  simp only [getObject]
  rw [readByte_at t [] ext _ 0 seq false cmk afb (by simp) rfl]
  simp only [except_bind_ok]
  rw [if_neg hc2, if_neg hf6, if_neg hf5]
  rw [if_neg (show ¬ t &&& 0x1f > 27 by omega),
    if_pos (show t &&& 0x1f > 23 by omega)]
  rw [← hlen]
  rw [readChunk_at ext 0 [t] [] _ (0 + 1) seq false cmk (by simp) rfl]
  simp only [except_bind_ok]
  rw [if_neg (show ¬ _ from fun h => by simpa using h.2)]
  rw [except_pure_bind]
  rw [h0]
  simp only [beVal] at hsafe
  rw [if_neg (show ¬ _ > maxSafeInteger by omega)]
  simp [beVal]

/-- C4, counterexample: the claim says every item whose header argument
uses a non-minimal {1,2,4,8}-byte extension field decodes successfully in
lenient (`acceptNonDeterministic`) mode.  For the float-header item
`f90000` and the 23-element-array item `9817` -- both rejected by strict
mode with the non-canonical-N error, as claimed -- lenient decoding fails
too: the float16 switch case is commented out in the source, so `f9` falls
through to the `Unsupported tag` default, and the nonempty-array loop
evaluates the out-of-scope bare identifier `getObject`, a
`ReferenceError`. -/
theorem c4_lenient_counterexample :
    decode [0xf9, 0x00, 0x00] =
      .error ("Non-deterministic N encoding for tag: 0xf9") ∧
    decodeLenient [0xf9, 0x00, 0x00] = .error ("Unsupported tag: f9") ∧
    decode [0x98, 0x17] =
      .error ("Non-deterministic N encoding for tag: 0x98") ∧
    decodeLenient [0x98, 0x17] =
      .error ("ReferenceError: getObject is not defined") := by
  exact ⟨rfl, rfl, rfl, rfl⟩

/-- C4 as amended: for every input item whose header argument uses a
{1,2,4,8}-byte extension field encoding a value representable in a strictly
smaller width (value < 24, or the upper half of the field all zero -- e.g.
`1817`), strict decoding fails with the non-canonical-N error whatever
bytes follow the header; lenient decoding (`acceptNonDeterministic`)
accepts the non-minimal extension field itself, shown for the major-type-0
(unsigned integer) items in the safe-integer range, which decode to the
encoded value.  For float, string, nonempty-array and tag items lenient
decoding still fails, but through the decoder defects of C1 (commented-out
float cases, out-of-scope `getObject`, undefined `UTF8`), not through the
length check. -/
theorem c4_non_canonical_length_amended (t : Nat) (ext rest : List Nat)
    (hn1 : 24 ≤ t &&& 0x1f) (hn2 : t &&& 0x1f ≤ 27)
    (hlen : ext.length = 1 <<< ((t &&& 0x1f) - 24))
    (hnc : beVal ext < 24 ∨ 0xffffffff <<< ((ext.length >>> 1) * 8) &&& beVal ext = 0) :
    decode (t :: ext ++ rest) =
      .error ("Non-deterministic N encoding for tag: 0x" ++ twoHex t) ∧
    (t &&& 0xe0 = 0 → beVal ext ≤ maxSafeInteger →
      decodeLenient (t :: ext) = .ok (some (.int (beVal ext)))) := by
  constructor
  · simp only [decode, getObjectTop, initDecoder, Bool.not_false, Bool.not_true]
    rw [getObject_ext_strict _ t ext rest false false true hn1 hn2 hlen hnc]
  · intro h0 hsafe
    simp only [decodeLenient, getObjectTop, initDecoder, Bool.not_false, Bool.not_true]
    rw [getObject_ext_lenient _ t ext false false true hn1 hn2 hlen h0 hsafe]
    simp only [List.length_cons]
    rw [if_neg (show ¬ (0 + 1 + ext.length < ext.length + 1) by omega)]
    simp

theorem c4_non_canonical_length_amended_witness :
    decode [0x18, 0x17] = .error ("Non-deterministic N encoding for tag: 0x18") ∧
    decodeLenient [0x18, 0x17] = .ok (some (.int 23)) := by
  have h := c4_non_canonical_length_amended 0x18 [0x17] [] (by decide) (by decide)
    (by decide) (by decide)
  exact ⟨h.1, h.2 (by decide) (by decide)⟩

/-- The big-endian fold with a nonzero accumulator. -/
theorem beVal_foldl : ∀ (bs : List Nat) (a : Nat),
    bs.foldl (fun acc b => acc * 256 + b) a = a * 256 ^ bs.length + beVal bs := by
  intro bs
  induction bs with
  | nil => intro a; simp [beVal]
  | cons b rest ih =>
    intro a
    simp only [List.foldl_cons, beVal, List.length_cons] at ih ⊢
    rw [ih (a * 256 + b), ih (0 * 256 + b), pow_succ]
    ring

/-- `beBytes` peels its first (most significant) byte. -/
theorem beBytes_succ (n L : Nat) :
    beBytes n (L + 1) = (n / 256 ^ L % 256) :: beBytes n L := by
  simp only [beBytes, List.range_succ_eq_map, List.map_cons, List.map_map]
  congr 1
  refine List.map_congr_left ?_
  intro i _
  show n / 256 ^ (L + 1 - 1 - (i + 1)) % 256 = n / 256 ^ (L - 1 - i) % 256
  have e : L + 1 - 1 - (i + 1) = L - 1 - i := by omega
  rw [e]

/-- The value stored by the extension-field writer: `beBytes n L` holds
`n mod 256^L` big-endian. -/
theorem beVal_beBytes (L : Nat) : ∀ n, beVal (beBytes n L) = n % 256 ^ L := by
  induction L with
  | zero => intro n; simp [beBytes, beVal, Nat.mod_one]
  | succ L ih =>
    intro n
    rw [beBytes_succ]
    show List.foldl _ 0 _ = _
    simp only [List.foldl_cons]
    have := beVal_foldl (beBytes n L) (0 * 256 + n / 256 ^ L % 256)
    rw [this, ih n]
    have hlen : (beBytes n L).length = L := by simp [beBytes]
    rw [hlen, Nat.mod_pow_succ]
    ring

/-- A number with a set bit in `[h, h+32)` meets the decoder mask
`0xffffffff << h`. -/
theorem mask_and_ne_zero (h n : Nat) (h1 : 2 ^ h ≤ n) (h2 : n < 2 ^ (h + 32)) :
    0xffffffff <<< h &&& n ≠ 0 := by
  have hn0 : n ≠ 0 := by
    have : (1 : Nat) ≤ 2 ^ h := Nat.one_le_two_pow
    omega
  obtain ⟨i, hi, hi2⟩ := Nat.exists_most_significant_bit hn0
  have hlt : n < 2 ^ (i + 1) := by
    refine Nat.lt_of_testBit (i + 1) (hi2 _ (by omega)) ?_ ?_
    · exact Nat.testBit_two_pow_self
    · intro j hj
      rw [hi2 j (by omega), Nat.testBit_two_pow_of_ne (by omega)]
  have hhi : h ≤ i := by
    by_contra hc
    push_neg at hc
    have : 2 ^ (i + 1) ≤ 2 ^ h := Nat.pow_le_pow_right (by norm_num) (by omega)
    omega
  have hi32 : i < h + 32 := by
    have hge := Nat.testBit_implies_ge hi
    by_contra hc
    push_neg at hc
    have : 2 ^ (h + 32) ≤ 2 ^ i := Nat.pow_le_pow_right (by norm_num) hc
    omega
  intro h0
  have htb := congrArg (fun x => Nat.testBit x i) h0
  simp only [Nat.testBit_and, Nat.zero_testBit] at htb
  rw [hi] at htb
  have hmask : Nat.testBit (0xffffffff <<< h) i = true := by
    rw [Nat.testBit_shiftLeft]
    rw [show (0xffffffff : Nat) = 2 ^ 32 - 1 from by norm_num,
      Nat.testBit_two_pow_sub_one]
    simp only [ge_iff_le, Bool.and_eq_true, decide_eq_true_eq]
    exact ⟨hhi, by omega⟩
  rw [hmask] at htb
  simp at htb

/-- `readChunk` with the byte count given as a separate argument. -/
theorem readChunk_count (q : Nat) (ext : List Nat) (acc : Nat)
    (pre post cb : List Nat) (c : Nat) (seq det cmk : Bool)
    (hq : q = ext.length) (hcb : cb = pre ++ ext ++ post) (hc : c = pre.length) :
    readChunk q acc ⟨cb, c, seq, det, cmk, false⟩ =
      .ok (ext.foldl (fun a b => a * 256 + b) acc,
        ⟨cb, c + ext.length, seq, det, cmk, false⟩) := by
  subst hq
  exact readChunk_at ext acc pre post cb c seq det cmk hcb hc

/-- `readBytesD` returns the next `bs.length` bytes verbatim. -/
theorem readBytesD_at (bs : List Nat) : ∀ (q : Nat) (pre post cb : List Nat)
    (c : Nat) (seq det cmk : Bool), q = bs.length → cb = pre ++ bs ++ post →
    c = pre.length →
    readBytesD q ⟨cb, c, seq, det, cmk, false⟩ =
      .ok (bs, ⟨cb, c + bs.length, seq, det, cmk, false⟩) := by
  induction bs with
  | nil =>
    intro q pre post cb c seq det cmk hq hcb hc
    subst hq
    simp [readBytesD]
  | cons b rest ih =>
    intro q pre post cb c seq det cmk hq hcb hc
    subst hq
    simp only [List.length_cons, readBytesD]
    rw [readByte_at b pre (rest ++ post) cb c seq det cmk false (by simp [hcb]) hc]
    simp only [except_bind_ok]
    rw [ih rest.length (pre ++ [b]) post cb (c + 1) seq det cmk rfl
      (by simp [hcb]) (by simp [hc])]
    simp only [except_bind_ok]
    have e : c + (rest.length + 1) = c + 1 + rest.length := by omega
    rw [e]

/-- Header-byte facts for a byte string of length at most 23. -/
theorem hdr_small_facts : ∀ len < 24,
    (0x40 ||| len) % 256 = 64 + len ∧ (64 + len) &&& 0x1f = len ∧
    (64 + len) &&& 0xe0 = 0x40 ∧ ¬ (64 + len = 0xc3 ∨ 64 + len = 0xc2) ∧
    ¬ (64 + len = 0xf6) ∧ ¬ (64 + len = 0xf5 ∨ 64 + len = 0xf4) := by decide

/-- Decoding a byte string whose length needs a 1-byte extension field. -/
theorem getObject_bytes_w1 (fuel : Nat) (payload pre post cb : List Nat) (c : Nat)
    (seq det cmk afb : Bool)
    (hlo : 24 ≤ payload.length) (hhi : payload.length < 256)
    (hcb : cb = pre ++ bytesItemEncode payload ++ post)
    (hc : c = pre.length) :
    getObject (fuel + 1) ⟨cb, c, seq, det, cmk, afb⟩ =
      .ok (.bytes payload, ⟨cb, c + 1 + 1 + payload.length, seq, det, cmk, false⟩) := by
  have hloop : encodeTagAndNLoop payload.length 3 (24, 1, 0x100) = (24, 1, 0x100) := by
    simp only [encodeTagAndNLoop]
    rw [if_neg (show ¬ ((1:Nat) < 8 ∧ payload.length ≥ 0x100) from by
      rintro ⟨-, h⟩; omega)]
  have hB : bytesItemEncode payload = 0x58 :: (beBytes payload.length 1 ++ payload) := by
    simp only [bytesItemEncode, encodeTagAndN]
    rw [if_pos (show payload.length > 23 by omega), hloop]
    rfl
  rw [hB] at hcb
  simp only [getObject]
  rw [readByte_at 0x58 pre (beBytes payload.length 1 ++ payload ++ post) cb c
    seq det cmk afb (by simp [hcb]) hc]
  simp only [except_bind_ok]
  rw [if_neg (by decide), if_neg (by decide), if_neg (by decide)]
  rw [if_neg (by decide), if_pos (by decide)]
  rw [readChunk_count (1 <<< ((0x58 &&& 0x1f) - 24)) (beBytes payload.length 1) 0
    (pre ++ [0x58]) (payload ++ post) cb (c + 1) seq det cmk
    (by simp [beBytes]; try decide) (by simp [hcb]) (by simp [hc])]
  simp only [except_bind_ok]
  have hbv : List.foldl (fun a b => a * 256 + b) 0 (beBytes payload.length 1) =
      payload.length := by
    have h1 := beVal_beBytes 1 payload.length
    simp only [beVal] at h1
    rw [h1, pow_one]
    exact Nat.mod_eq_of_lt hhi
  rw [hbv]
  rw [if_neg (show ¬ _ from by
    rintro ⟨h24 | hm, -⟩
    · omega
    · have ex : ((1 <<< ((0x58 &&& 0x1f) - 24)) >>> 1) * 8 = 0 := by decide
      rw [ex] at hm
      exact mask_and_ne_zero 0 payload.length
        (by rw [show ((2:Nat) ^ 0) = 1 from by norm_num]; omega)
        (by rw [show ((2:Nat) ^ (0 + 32)) = 4294967296 from by norm_num]; omega) hm)]
  simp only [except_pure_bind]
  simp only [rangeLimitedBigInt]
  rw [if_neg (show ¬ payload.length > 0xffffffff by omega)]
  simp only [except_bind_ok]
  rw [readBytesD_at payload payload.length (pre ++ [0x58] ++ beBytes payload.length 1)
    post cb (c + 1 + (beBytes payload.length 1).length) seq det cmk rfl
    (by simp [hcb]) (by simp [hc, beBytes]; try omega)]
  simp only [except_bind_ok]
  simp [beBytes]

/-- Decoding a byte string whose length needs a 2-byte extension field. -/
theorem getObject_bytes_w2 (fuel : Nat) (payload pre post cb : List Nat) (c : Nat)
    (seq det cmk afb : Bool)
    (hlo : 256 ≤ payload.length) (hhi : payload.length < 65536)
    (hcb : cb = pre ++ bytesItemEncode payload ++ post)
    (hc : c = pre.length) :
    getObject (fuel + 1) ⟨cb, c, seq, det, cmk, afb⟩ =
      .ok (.bytes payload, ⟨cb, c + 1 + 2 + payload.length, seq, det, cmk, false⟩) := by
  have hloop : encodeTagAndNLoop payload.length 3 (24, 1, 0x100) = (25, 2, 0x10000) := by
    simp only [encodeTagAndNLoop]
    rw [if_pos (show _ ∧ _ from ⟨by norm_num, by omega⟩)]
    rw [if_neg (show ¬ _ from by rintro ⟨-, h⟩; omega)]
  have hB : bytesItemEncode payload = 0x59 :: (beBytes payload.length 2 ++ payload) := by
    simp only [bytesItemEncode, encodeTagAndN]
    rw [if_pos (show payload.length > 23 by omega), hloop]
    rfl
  rw [hB] at hcb
  simp only [getObject]
  rw [readByte_at 0x59 pre (beBytes payload.length 2 ++ payload ++ post) cb c
    seq det cmk afb (by simp [hcb]) hc]
  simp only [except_bind_ok]
  rw [if_neg (by decide), if_neg (by decide), if_neg (by decide)]
  rw [if_neg (by decide), if_pos (by decide)]
  rw [readChunk_count (1 <<< ((0x59 &&& 0x1f) - 24)) (beBytes payload.length 2) 0
    (pre ++ [0x59]) (payload ++ post) cb (c + 1) seq det cmk
    (by simp [beBytes]; try decide) (by simp [hcb]) (by simp [hc])]
  simp only [except_bind_ok]
  have hbv : List.foldl (fun a b => a * 256 + b) 0 (beBytes payload.length 2) =
      payload.length := by
    have h1 := beVal_beBytes 2 payload.length
    simp only [beVal] at h1
    rw [h1, show ((256:Nat) ^ 2) = 65536 from by norm_num]
    exact Nat.mod_eq_of_lt hhi
  rw [hbv]
  rw [if_neg (show ¬ _ from by
    rintro ⟨h24 | hm, -⟩
    · omega
    · have ex : ((1 <<< ((0x59 &&& 0x1f) - 24)) >>> 1) * 8 = 8 := by decide
      rw [ex] at hm
      exact mask_and_ne_zero 8 payload.length
        (by rw [show ((2:Nat) ^ 8) = 256 from by norm_num]; omega)
        (by rw [show ((2:Nat) ^ (8 + 32)) = 1099511627776 from by norm_num]; omega) hm)]
  simp only [except_pure_bind]
  simp only [rangeLimitedBigInt]
  rw [if_neg (show ¬ payload.length > 0xffffffff by omega)]
  simp only [except_bind_ok]
  rw [readBytesD_at payload payload.length (pre ++ [0x59] ++ beBytes payload.length 2)
    post cb (c + 1 + (beBytes payload.length 2).length) seq det cmk rfl
    (by simp [hcb]) (by simp [hc, beBytes]; try omega)]
  simp only [except_bind_ok]
  simp [beBytes]

/-- Decoding a byte string whose length needs a 4-byte extension field. -/
theorem getObject_bytes_w4 (fuel : Nat) (payload pre post cb : List Nat) (c : Nat)
    (seq det cmk afb : Bool)
    (hlo : 65536 ≤ payload.length) (hhi : payload.length < 4294967296)
    (hcb : cb = pre ++ bytesItemEncode payload ++ post)
    (hc : c = pre.length) :
    getObject (fuel + 1) ⟨cb, c, seq, det, cmk, afb⟩ =
      .ok (.bytes payload, ⟨cb, c + 1 + 4 + payload.length, seq, det, cmk, false⟩) := by
  have hloop : encodeTagAndNLoop payload.length 3 (24, 1, 0x100) = (26, 4, 0x100000000) := by
    simp only [encodeTagAndNLoop]
    rw [if_pos (show _ ∧ _ from ⟨by norm_num, by omega⟩)]
    rw [if_pos (show _ ∧ _ from ⟨by norm_num, by omega⟩)]
    rw [if_neg (show ¬ _ from by rintro ⟨-, h⟩; omega)]
  have hB : bytesItemEncode payload = 0x5a :: (beBytes payload.length 4 ++ payload) := by
    simp only [bytesItemEncode, encodeTagAndN]
    rw [if_pos (show payload.length > 23 by omega), hloop]
    rfl
  rw [hB] at hcb
  simp only [getObject]
  rw [readByte_at 0x5a pre (beBytes payload.length 4 ++ payload ++ post) cb c
    seq det cmk afb (by simp [hcb]) hc]
  simp only [except_bind_ok]
  rw [if_neg (by decide), if_neg (by decide), if_neg (by decide)]
  rw [if_neg (by decide), if_pos (by decide)]
  rw [readChunk_count (1 <<< ((0x5a &&& 0x1f) - 24)) (beBytes payload.length 4) 0
    (pre ++ [0x5a]) (payload ++ post) cb (c + 1) seq det cmk
    (by simp [beBytes]; try decide) (by simp [hcb]) (by simp [hc])]
  simp only [except_bind_ok]
  have hbv : List.foldl (fun a b => a * 256 + b) 0 (beBytes payload.length 4) =
      payload.length := by
    have h1 := beVal_beBytes 4 payload.length
    simp only [beVal] at h1
    rw [h1, show ((256:Nat) ^ 4) = 4294967296 from by norm_num]
    exact Nat.mod_eq_of_lt hhi
  rw [hbv]
  rw [if_neg (show ¬ _ from by
    rintro ⟨h24 | hm, -⟩
    · omega
    · have ex : ((1 <<< ((0x5a &&& 0x1f) - 24)) >>> 1) * 8 = 16 := by decide
      rw [ex] at hm
      exact mask_and_ne_zero 16 payload.length
        (by rw [show ((2:Nat) ^ 16) = 65536 from by norm_num]; omega)
        (by rw [show ((2:Nat) ^ (16 + 32)) = 281474976710656 from by norm_num]; omega) hm)]
  simp only [except_pure_bind]
  simp only [rangeLimitedBigInt]
  rw [if_neg (show ¬ payload.length > 0xffffffff by omega)]
  simp only [except_bind_ok]
  rw [readBytesD_at payload payload.length (pre ++ [0x5a] ++ beBytes payload.length 4)
    post cb (c + 1 + (beBytes payload.length 4).length) seq det cmk rfl
    (by simp [hcb]) (by simp [hc, beBytes]; try omega)]
  simp only [except_bind_ok]
  simp [beBytes]

/-- Decoding a byte string whose length fits the header byte. -/
theorem getObject_bytes_small (fuel : Nat) (payload pre post cb : List Nat) (c : Nat)
    (seq det cmk afb : Bool)
    (hlen : payload.length ≤ 23)
    (hcb : cb = pre ++ bytesItemEncode payload ++ post)
    (hc : c = pre.length) :
    getObject (fuel + 1) ⟨cb, c, seq, det, cmk, afb⟩ =
      .ok (.bytes payload, ⟨cb, c + 1 + payload.length, seq, det, cmk, false⟩) := by
  obtain ⟨e1, e2, e3, e4, e5, e6⟩ := hdr_small_facts payload.length (by omega)
  have hB : bytesItemEncode payload = (64 + payload.length) :: payload := by
    simp only [bytesItemEncode, encodeTagAndN]
    rw [if_neg (show ¬ payload.length > 23 by omega), e1]
    rfl
  rw [hB] at hcb
  simp only [getObject]
  rw [readByte_at (64 + payload.length) pre (payload ++ post) cb c seq det cmk afb
    (by simp [hcb]) hc]
  simp only [except_bind_ok]
  rw [if_neg e4, if_neg e5, if_neg e6, e2]
  rw [if_neg (show ¬ payload.length > 27 by omega),
    if_neg (show ¬ payload.length > 23 by omega)]
  simp only [except_pure_bind]
  rw [e3]
  simp only [rangeLimitedBigInt]
  rw [if_neg (show ¬ payload.length > 0xffffffff by omega)]
  simp only [except_bind_ok]
  rw [readBytesD_at payload payload.length (pre ++ [64 + payload.length])
    post cb (c + 1) seq det cmk rfl (by simp [hcb]) (by simp [hc])]
  simp only [except_bind_ok]

/-- Decoding any encoded byte string item (all four header widths). -/
theorem getObject_bytesItem (fuel : Nat) (payload pre post cb : List Nat) (c : Nat)
    (seq det cmk afb : Bool)
    (hl : payload.length ≤ 0xffffffff)
    (hcb : cb = pre ++ bytesItemEncode payload ++ post)
    (hc : c = pre.length) :
    getObject (fuel + 1) ⟨cb, c, seq, det, cmk, afb⟩ =
      .ok (.bytes payload,
        ⟨cb, c + (bytesItemEncode payload).length, seq, det, cmk, false⟩) := by
  by_cases h23 : payload.length ≤ 23
  · rw [getObject_bytes_small fuel payload pre post cb c seq det cmk afb h23 hcb hc]
    have hB : bytesItemEncode payload = (64 + payload.length) :: payload := by
      simp only [bytesItemEncode, encodeTagAndN]
      rw [if_neg (show ¬ payload.length > 23 by omega),
        (hdr_small_facts payload.length (by omega)).1]
      rfl
    have e : c + 1 + payload.length = c + (bytesItemEncode payload).length := by
      rw [hB]
      simp
      try omega
    rw [e]
  by_cases h256 : payload.length < 256
  · rw [getObject_bytes_w1 fuel payload pre post cb c seq det cmk afb (by omega) h256 hcb hc]
    have hloop : encodeTagAndNLoop payload.length 3 (24, 1, 0x100) = (24, 1, 0x100) := by
      simp only [encodeTagAndNLoop]
      rw [if_neg (show ¬ ((1:Nat) < 8 ∧ payload.length ≥ 0x100) from by
        rintro ⟨-, h⟩; omega)]
    have hB : bytesItemEncode payload = 0x58 :: (beBytes payload.length 1 ++ payload) := by
      simp only [bytesItemEncode, encodeTagAndN]
      rw [if_pos (show payload.length > 23 by omega), hloop]
      rfl
    have e : c + 1 + 1 + payload.length = c + (bytesItemEncode payload).length := by
      rw [hB]
      simp [beBytes]
      try omega
    rw [e]
  by_cases h64k : payload.length < 65536
  · rw [getObject_bytes_w2 fuel payload pre post cb c seq det cmk afb (by omega) h64k hcb hc]
    have hloop : encodeTagAndNLoop payload.length 3 (24, 1, 0x100) = (25, 2, 0x10000) := by
      simp only [encodeTagAndNLoop]
      rw [if_pos (show _ ∧ _ from ⟨by norm_num, by omega⟩)]
      rw [if_neg (show ¬ _ from by rintro ⟨-, h⟩; omega)]
    have hB : bytesItemEncode payload = 0x59 :: (beBytes payload.length 2 ++ payload) := by
      simp only [bytesItemEncode, encodeTagAndN]
      rw [if_pos (show payload.length > 23 by omega), hloop]
      rfl
    have e : c + 1 + 2 + payload.length = c + (bytesItemEncode payload).length := by
      rw [hB]
      simp [beBytes]
      try omega
    rw [e]
  · rw [getObject_bytes_w4 fuel payload pre post cb c seq det cmk afb (by omega)
      (by omega) hcb hc]
    have hloop : encodeTagAndNLoop payload.length 3 (24, 1, 0x100) = (26, 4, 0x100000000) := by
      simp only [encodeTagAndNLoop]
      rw [if_pos (show _ ∧ _ from ⟨by norm_num, by omega⟩)]
      rw [if_pos (show _ ∧ _ from ⟨by norm_num, by omega⟩)]
      rw [if_neg (show ¬ _ from by rintro ⟨-, h⟩; omega)]
    have hB : bytesItemEncode payload = 0x5a :: (beBytes payload.length 4 ++ payload) := by
      simp only [bytesItemEncode, encodeTagAndN]
      rw [if_pos (show payload.length > 23 by omega), hloop]
      rfl
    have e : c + 1 + 4 + payload.length = c + (bytesItemEncode payload).length := by
      rw [hB]
      simp [beBytes]
      try omega
    rw [e]

/-- The decoder's BigInt fold over `Int` computes the same value as the
natural big-endian fold. -/
theorem intFold_beVal : ∀ (bs : List Nat) (a : Nat),
    bs.foldl (fun (acc : Int) (byte : Nat) => acc * 256 + (byte : Int)) (a : Int) =
      ((bs.foldl (fun acc b => acc * 256 + b) a : Nat) : Int) := by
  intro bs
  induction bs with
  | nil => intro a; rfl
  | cons b rest ih =>
    intro a
    simp only [List.foldl_cons]
    rw [show ((a : Int) * 256 + (b : Int)) = ((a * 256 + b : Nat) : Int) from by
      push_cast; ring]
    exact ih (a * 256 + b)

/-- Strict decoding of a bignum-tagged item over an encoded byte-string
payload: the three malformedness conditions exactly characterize failure. -/
theorem getObject_bignum (f c0 : Nat) (payload : List Nat)
    (hf : f ≠ 0)
    (hc : c0 = 0xc2 ∨ c0 = 0xc3)
    (hl : payload.length ≤ 0xffffffff) :
    getObject (f + 1)
      ⟨c0 :: bytesItemEncode payload, 0, false, true, false, true⟩ =
      (if payload.length = 0 ∨ payload.headD 0 = 0 ∨ payload.length ≤ 8 then
        .error ("Non-deterministic big integer encoding")
      else
        .ok (.bigint (if c0 = 0xc3 then -(beVal payload : Int) - 1
            else (beVal payload : Int)),
          ⟨c0 :: bytesItemEncode payload, 0 + 1 + (bytesItemEncode payload).length,
            false, true, false, false⟩)) := by
  simp only [getObject]
  rw [readByte_at c0 [] (bytesItemEncode payload) _ 0 false true false true (by simp) rfl]
  simp only [except_bind_ok]
  rw [if_pos (Or.symm hc)]
  obtain ⟨fuel, rfl⟩ : ∃ g, f = g + 1 := ⟨f - 1, by omega⟩
  rw [getObject_bytesItem fuel payload [c0] [] _ (0 + 1) false true false false hl
    (by simp) (by simp)]
  simp only [except_bind_ok, getBytesV]
  by_cases hbad : payload.length = 0 ∨ payload.headD 0 = 0 ∨ payload.length ≤ 8
  · rw [if_pos (show _ ∧ _ from ⟨hbad, trivial⟩), if_pos hbad]
  · rw [if_neg (show ¬ _ from fun hh => hbad hh.1), if_neg hbad]
    have hif : List.foldl (fun (acc : Int) (byte : Nat) => acc * 256 + (byte : Int))
        (0 : Int) payload = ((beVal payload : Nat) : Int) := by
      simpa [beVal] using intFold_beVal payload 0
    rw [hif]

/-- C7: strict decoding of a bignum-tagged item (initial byte 0xc2 or 0xc3)
over a wrapped byte-string payload fails with the non-canonical big-integer
error exactly when the payload is empty, begins with a zero byte, or is at
most 8 bytes long; any other payload is accepted and converted to the
corresponding big integer (0xc3 yielding `-value - 1`). -/
theorem c7_bignum_decode (c0 : Nat) (payload : List Nat)
    (hc : c0 = 0xc2 ∨ c0 = 0xc3)
    (hl : payload.length ≤ 0xffffffff) :
    decode (c0 :: bytesItemEncode payload) =
      if payload.length = 0 ∨ payload.headD 0 = 0 ∨ payload.length ≤ 8 then
        .error ("Non-deterministic big integer encoding")
      else
        .ok (some (.bigint (if c0 = 0xc3 then -(beVal payload : Int) - 1
          else (beVal payload : Int)))) := by
  simp only [decode, getObjectTop, initDecoder, Bool.not_false, List.length_cons]
  rw [getObject_bignum ((bytesItemEncode payload).length + 1) c0 payload
    (Nat.succ_ne_zero _) hc hl]
  by_cases hbad : payload.length = 0 ∨ payload.headD 0 = 0 ∨ payload.length ≤ 8
  · rw [if_pos hbad, if_pos hbad]
  · rw [if_neg hbad, if_neg hbad]
    simp [Nat.add_comm]

theorem c7_bignum_decode_witness :
    decode (0xc2 :: bytesItemEncode [1, 0, 0, 0, 0, 0, 0, 0, 0]) =
      .ok (some (.bigint 18446744073709551616)) := by
  rw [c7_bignum_decode 0xc2 [1, 0, 0, 0, 0, 0, 0, 0, 0] (Or.inl rfl) (by decide)]
  rfl

/-- Decoding the single byte 0x00 yields `Int(0)`. -/
theorem getObject_byte0 (g : Nat) (pre post cb : List Nat) (c : Nat)
    (seq det cmk afb : Bool)
    (hcb : cb = pre ++ 0x00 :: post) (hc : c = pre.length) :
    getObject (g + 1) ⟨cb, c, seq, det, cmk, afb⟩ =
      .ok (.int 0, ⟨cb, c + 1, seq, det, cmk, false⟩) := by
  simp only [getObject]
  rw [readByte_at 0x00 pre post cb c seq det cmk afb hcb hc]
  simp only [except_bind_ok]
  rw [if_neg (by decide), if_neg (by decide), if_neg (by decide), if_neg (by decide),
    if_neg (by decide)]
  simp only [except_pure_bind]
  rw [if_neg (by decide)]
  rfl

/-- The length of the nested-map encoding. -/
theorem nestBytes_length : ∀ d, (nestBytes d).length = 2 * d + 1 := by
  intro d
  induction d with
  | zero => rfl
  | succ d ih =>
    simp only [nestBytes, List.length_cons, ih]
    omega

/-- The decoder accepts a map nest of every depth `d`: the recursion is
bounded only by the input, with no depth check anywhere. -/
theorem getObject_nest : ∀ (d fuel : Nat), d < fuel →
    ∀ (pre post cb : List Nat) (c : Nat) (seq det cmk afb : Bool),
    cb = pre ++ nestBytes d ++ post → c = pre.length →
    getObject fuel ⟨cb, c, seq, det, cmk, afb⟩ =
      .ok (nestVal d, ⟨cb, c + (nestBytes d).length, seq, det, cmk, false⟩) := by
  intro d
  induction d with
  | zero =>
    intro fuel hf pre post cb c seq det cmk afb hcb hc
    obtain ⟨f, rfl⟩ : ∃ g, fuel = g + 1 := ⟨fuel - 1, by omega⟩
    simp only [getObject]
    rw [readByte_at 0xf6 pre post cb c seq det cmk afb (by simpa [nestBytes] using hcb) hc]
    simp only [except_bind_ok]
    rw [if_neg (by decide), if_pos (by decide)]
    rfl
  | succ d ih =>
    intro fuel hf pre post cb c seq det cmk afb hcb hc
    obtain ⟨f, rfl⟩ : ∃ g, fuel = g + 1 := ⟨fuel - 1, by omega⟩
    have hcb2 : cb = pre ++ 0xa1 :: 0x00 :: (nestBytes d ++ post) := by
      simpa [nestBytes] using hcb
    simp only [getObject]
    rw [readByte_at 0xa1 pre (0x00 :: (nestBytes d ++ post)) cb c seq det cmk afb
      hcb2 hc]
    simp only [except_bind_ok]
    rw [if_neg (by decide), if_neg (by decide), if_neg (by decide), if_neg (by decide),
      if_neg (by decide)]
    simp only [except_pure_bind]
    simp only [rangeLimitedBigInt]
    rw [if_neg (by decide)]
    simp only [except_bind_ok]
    rw [show List.range (0xa1 &&& 0x1f) = [0] from by decide]
    simp only [List.foldlM_cons, List.foldlM_nil]
    obtain ⟨g, rfl⟩ : ∃ g2, f = g2 + 1 := ⟨f - 1, by omega⟩
    rw [getObject_byte0 g (pre ++ [0xa1]) (nestBytes d ++ post) cb (c + 1) seq det cmk
      false (by simpa using hcb2) (by simp [hc])]
    simp only [except_bind_ok]
    rw [ih (g + 1) (by omega) (pre ++ [0xa1, 0x00]) post cb (c + 1 + 1) seq det cmk
      false (by simpa using hcb2) (by simp [hc])]
    simp only [except_bind_ok]
    simp only [mapSet, emptyMap, MapState.toValue, except_pure_bind, except_bind_ok]
    have e : c + 1 + 1 + (nestBytes d).length = c + (nestBytes (d + 1)).length := by
      simp only [nestBytes, List.length_cons]
      omega
    rw [e]
    rfl

/-- C9: the spec requires an explicit nesting depth limit with a
MaxDepthExceeded error on recursive Array/Map/Tag decoding, but the code has
no depth check at all: strict decoding of the depth-`d` map nest
`a100a100...f6` succeeds for every `d`, returning the nested map value. -/
theorem c9_no_depth_limit (d : Nat) :
    decode (nestBytes d) = .ok (some (nestVal d)) := by
  simp only [decode, getObjectTop, initDecoder, Bool.not_false]
  rw [getObject_nest d ((nestBytes d).length + 1)
    (by have := nestBytes_length d; omega) [] [] (nestBytes d) 0 false true false true
    (by simp) rfl]
  simp

/-!  ## C2: the Float canonicalizer, general analysis -/

set_option maxRecDepth 4096 in
/-- Byte-level mask facts used by the constructor (all operands are bytes). -/
theorem byte_and_facts : ∀ x < 256,
    x &&& 0x7f = x % 128 ∧ x &&& 0xf0 = x / 16 % 16 * 16 ∧ x &&& 0x0f = x % 16 ∧
    x &&& 0x1f = x % 32 ∧ x &&& 0x80 = x / 128 % 2 * 128 := by decide

/-- `floorLog2` computes the floor logarithm. -/
theorem floorLog2A_spec : ∀ (fuel n k : Nat), n ≤ fuel → 2 ^ k ≤ n → n < 2 ^ (k + 1) →
    floorLog2A fuel n = k := by
  intro fuel
  induction fuel with
  | zero =>
    intro n k hn hk1 hk2
    have : (1:Nat) ≤ 2 ^ k := Nat.one_le_two_pow
    omega
  | succ f ih =>
    intro n k hn hk1 hk2
    rcases Nat.eq_zero_or_pos k with rfl | hkpos
    · have hn2 : n < 2 := by simpa using hk2
      simp only [floorLog2A]
      rw [if_pos (by omega)]
    · obtain ⟨k1, rfl⟩ : ∃ k1, k = k1 + 1 := ⟨k - 1, by omega⟩
      have h2 : (2:Nat) ^ (k1 + 1) = 2 ^ k1 * 2 := by rw [pow_succ]
      have h3 : (2:Nat) ^ (k1 + 1 + 1) = 2 ^ (k1 + 1) * 2 := by rw [pow_succ]
      have hone : (1:Nat) ≤ 2 ^ k1 := Nat.one_le_two_pow
      simp only [floorLog2A]
      rw [if_neg (show ¬ n ≤ 1 by omega)]
      rw [ih (n / 2) k1 (by omega) (by omega) (by omega)]

theorem floorLog2_spec (n k : Nat) (h1 : 2 ^ k ≤ n) (h2 : n < 2 ^ (k + 1)) :
    floorLog2 n = k :=
  floorLog2A_spec n n k le_rfl h1 h2

/-- A fully divisible significand passes the F32 renormalization loop
unharmed. -/
theorem renormF32A_ok : ∀ (iters sig : Nat) (exp : Int), sig % 2 ^ iters = 0 →
    renormF32A iters sig exp = .ok (sig / 2 ^ iters, exp + iters) := by
  intro iters
  induction iters with
  | zero => intro sig exp h; simp [renormF32A]
  | succ i ih =>
    intro sig exp h
    have hdvd : 2 ^ (i + 1) ∣ sig := Nat.dvd_of_mod_eq_zero h
    obtain ⟨c, hc⟩ := hdvd
    have hsig2 : sig / 2 = 2 ^ i * c := by
      rw [show (2:Nat) ^ (i + 1) * c = 2 ^ i * c * 2 from by rw [pow_succ]; ring] at hc
      rw [hc, Nat.mul_div_cancel _ (by norm_num)]
    have heven : sig % 2 = 0 := by
      have h21 : (2:Nat) ∣ 2 ^ (i + 1) := dvd_pow_self 2 (Nat.succ_ne_zero i)
      exact Nat.mod_eq_zero_of_dvd (dvd_trans h21 (Nat.dvd_of_mod_eq_zero h))
    simp only [renormF32A]
    rw [if_neg (by omega)]
    rw [ih (sig / 2) (exp + 1) (by rw [hsig2]; exact Nat.mul_mod_right _ _)]
    have e1 : sig / 2 / 2 ^ i = sig / 2 ^ (i + 1) := by
      rw [Nat.div_div_eq_div_mul]
      congr 1
      rw [pow_succ]
      ring
    rw [e1]
    have e2 : exp + 1 + (i : Int) = exp + ((i + 1 : Nat) : Int) := by push_cast; ring
    rw [e2]

/-- Same for the F16 loop. -/
theorem renormF16A_ok : ∀ (iters sig : Nat) (exp : Int), sig % 2 ^ iters = 0 →
    renormF16A iters sig exp = (sig / 2 ^ iters, exp + iters) := by
  intro iters
  induction iters with
  | zero => intro sig exp h; simp [renormF16A]
  | succ i ih =>
    intro sig exp h
    have hdvd : 2 ^ (i + 1) ∣ sig := Nat.dvd_of_mod_eq_zero h
    obtain ⟨c, hc⟩ := hdvd
    have hsig2 : sig / 2 = 2 ^ i * c := by
      rw [show (2:Nat) ^ (i + 1) * c = 2 ^ i * c * 2 from by rw [pow_succ]; ring] at hc
      rw [hc, Nat.mul_div_cancel _ (by norm_num)]
    have heven : sig % 2 = 0 := by
      have h21 : (2:Nat) ∣ 2 ^ (i + 1) := dvd_pow_self 2 (Nat.succ_ne_zero i)
      exact Nat.mod_eq_zero_of_dvd (dvd_trans h21 (Nat.dvd_of_mod_eq_zero h))
    simp only [renormF16A]
    rw [if_neg (by omega)]
    rw [ih (sig / 2) (exp + 1) (by rw [hsig2]; exact Nat.mul_mod_right _ _)]
    have e1 : sig / 2 / 2 ^ i = sig / 2 ^ (i + 1) := by
      rw [Nat.div_div_eq_div_mul]
      congr 1
      rw [pow_succ]
      ring
    rw [e1]
    have e2 : exp + 1 + (i : Int) = exp + ((i + 1 : Nat) : Int) := by push_cast; ring
    rw [e2]

/-- A lost low bit makes the F16 loop return significand 0 (the break). -/
theorem renormF16A_break : ∀ (iters sig : Nat) (exp : Int), sig % 2 ^ iters ≠ 0 →
    (renormF16A iters sig exp).1 = 0 := by
  intro iters
  induction iters with
  | zero => intro sig exp h; exact absurd (Nat.mod_one sig) h
  | succ i ih =>
    intro sig exp h
    simp only [renormF16A]
    by_cases hodd : sig % 2 = 1
    · rw [if_pos hodd]
    · rw [if_neg hodd]
      refine ih (sig / 2) (exp + 1) ?_
      intro hdvd
      apply h
      obtain ⟨c, hc⟩ := Nat.dvd_of_mod_eq_zero hdvd
      have hs : sig = 2 ^ (i + 1) * c := by
        have h21 : sig = 2 * (sig / 2) := by omega
        rw [h21, hc, pow_succ]
        ring
      rw [hs]
      exact Nat.mul_mod_right _ _

/-- The eight big-endian bytes of a decomposed binary64 pattern. -/
theorem f64Byte_eval (s e m : Nat) (hs : s < 2) (he : e < 2048) (hm : m < 2 ^ 52) :
    f64Byte (s * 2 ^ 63 + e * 2 ^ 52 + m) 0 = s * 128 + e / 16 ∧
    f64Byte (s * 2 ^ 63 + e * 2 ^ 52 + m) 1 = e % 16 * 16 + m / 2 ^ 48 ∧
    f64Byte (s * 2 ^ 63 + e * 2 ^ 52 + m) 2 = m / 2 ^ 40 % 256 ∧
    f64Byte (s * 2 ^ 63 + e * 2 ^ 52 + m) 3 = m / 2 ^ 32 % 256 ∧
    f64Byte (s * 2 ^ 63 + e * 2 ^ 52 + m) 4 = m / 2 ^ 24 % 256 ∧
    f64Byte (s * 2 ^ 63 + e * 2 ^ 52 + m) 5 = m / 2 ^ 16 % 256 ∧
    f64Byte (s * 2 ^ 63 + e * 2 ^ 52 + m) 6 = m / 2 ^ 8 % 256 ∧
    f64Byte (s * 2 ^ 63 + e * 2 ^ 52 + m) 7 = m % 256 := by
  refine ⟨?_, ?_, ?_, ?_, ?_, ?_, ?_, ?_⟩ <;>
    (simp only [f64Byte]; norm_num; omega)

/-- Component extraction from a decomposed binary64 pattern. -/
theorem pattern_extract (s e m : Nat) (hs : s < 2) (he : e < 2048) (hm : m < 2 ^ 52) :
    (s * 2 ^ 63 + e * 2 ^ 52 + m) / 2 ^ 52 % 2048 = e ∧
    (s * 2 ^ 63 + e * 2 ^ 52 + m) % 2 ^ 52 = m ∧
    (s * 2 ^ 63 + e * 2 ^ 52 + m) / 2 ^ 63 % 2 = s :=
  ⟨by omega, by omega, by omega⟩

/-- `widen32` on a decomposed binary32 pattern. -/
theorem widen32_eval (t E M : Nat) (ht : t < 2) (hE : E < 256) (hM : M < 2 ^ 23) :
    widen32 (t * 2 ^ 31 + E * 2 ^ 23 + M) =
      if E = 255 then t * 2 ^ 63 + 2047 * 2 ^ 52 + M * 2 ^ 29
      else if E = 0 then
        if M = 0 then t * 2 ^ 63
        else t * 2 ^ 63 + (floorLog2 M + 874) * 2 ^ 52 +
          (M - 2 ^ floorLog2 M) * 2 ^ (52 - floorLog2 M)
      else t * 2 ^ 63 + (E + 896) * 2 ^ 52 + M * 2 ^ 29 := by
  simp only [widen32]
  have h1 : (t * 2 ^ 31 + E * 2 ^ 23 + M) / 2 ^ 31 % 2 = t := by omega
  have h2 : (t * 2 ^ 31 + E * 2 ^ 23 + M) / 2 ^ 23 % 256 = E := by omega
  have h3 : (t * 2 ^ 31 + E * 2 ^ 23 + M) % 2 ^ 23 = M := by omega
  rw [h1, h2, h3]

/-- `widen16` on a decomposed binary16 pattern. -/
theorem widen16_eval (t E M : Nat) (ht : t < 2) (hE : E < 32) (hM : M < 2 ^ 10) :
    widen16 (t * 2 ^ 15 + E * 2 ^ 10 + M) =
      if E = 31 then t * 2 ^ 63 + 2047 * 2 ^ 52 + M * 2 ^ 42
      else if E = 0 then
        if M = 0 then t * 2 ^ 63
        else t * 2 ^ 63 + (floorLog2 M + 999) * 2 ^ 52 +
          (M - 2 ^ floorLog2 M) * 2 ^ (52 - floorLog2 M)
      else t * 2 ^ 63 + (E + 1008) * 2 ^ 52 + M * 2 ^ 42 := by
  simp only [widen16]
  have h1 : (t * 2 ^ 15 + E * 2 ^ 10 + M) / 2 ^ 15 % 2 = t := by omega
  have h2 : (t * 2 ^ 15 + E * 2 ^ 10 + M) / 2 ^ 10 % 32 = E := by omega
  have h3 : (t * 2 ^ 15 + E * 2 ^ 10 + M) % 2 ^ 10 = M := by omega
  rw [h1, h2, h3]

/-- Bounds of the floor logarithm. -/
theorem floorLog2A_bounds : ∀ (fuel n : Nat), 0 < n → n ≤ fuel →
    2 ^ floorLog2A fuel n ≤ n ∧ n < 2 ^ (floorLog2A fuel n + 1) := by
  intro fuel
  induction fuel with
  | zero => intro n h1 h2; omega
  | succ f ih =>
    intro n h1 h2
    simp only [floorLog2A]
    by_cases hn1 : n ≤ 1
    · rw [if_pos hn1]
      simp
      omega
    · rw [if_neg hn1]
      obtain ⟨ihl, ihr⟩ := ih (n / 2) (by omega) (by omega)
      have hp1 : (2:Nat) ^ (floorLog2A f (n / 2) + 1) = 2 ^ floorLog2A f (n / 2) * 2 := by
        rw [pow_succ]
      have hp2 : (2:Nat) ^ (floorLog2A f (n / 2) + 1 + 1) =
          2 ^ (floorLog2A f (n / 2) + 1) * 2 := by rw [pow_succ]
      constructor
      · omega
      · omega

theorem floorLog2_bounds (n : Nat) (h : 0 < n) :
    2 ^ floorLog2 n ≤ n ∧ n < 2 ^ (floorLog2 n + 1) :=
  floorLog2A_bounds n n h le_rfl

/-- Characterization of exact 32-bit representability of a finite nonzero
double: the representing patterns are exactly `canon32`, and one exists
precisely under the bit-level condition of `f32Exact`. -/
theorem widen32_char (s e m : Nat) (hs : s < 2) (he : e < 2048) (hm : m < 2 ^ 52)
    (hfin : e ≠ 2047) (hnz : ¬ (e = 0 ∧ m = 0)) :
    (∀ q, q < 2 ^ 32 → widen32 q = s * 2 ^ 63 + e * 2 ^ 52 + m →
      ((897 ≤ e ∧ e ≤ 1150 ∧ m % 2 ^ 29 = 0) ∨
       (874 ≤ e ∧ e ≤ 896 ∧ m % 2 ^ (926 - e) = 0)) ∧ q = canon32 s e m) ∧
    (((897 ≤ e ∧ e ≤ 1150 ∧ m % 2 ^ 29 = 0) ∨
      (874 ≤ e ∧ e ≤ 896 ∧ m % 2 ^ (926 - e) = 0)) →
      canon32 s e m < 2 ^ 32 ∧
      widen32 (canon32 s e m) = s * 2 ^ 63 + e * 2 ^ 52 + m) := by
  constructor
  · intro q hq hw
    rw [show q = q / 2 ^ 31 % 2 * 2 ^ 31 + q / 2 ^ 23 % 256 * 2 ^ 23 + q % 2 ^ 23
      from by omega] at hw
    rw [widen32_eval (q / 2 ^ 31 % 2) (q / 2 ^ 23 % 256) (q % 2 ^ 23)
      (by omega) (by omega) (by omega)] at hw
    split_ifs at hw with h255 h0 hM0
    · exfalso
      have hMb : q % 2 ^ 23 * 2 ^ 29 < 2 ^ 52 := by omega
      omega
    · exfalso
      apply hnz
      omega
    · -- binary32 subnormal
      obtain ⟨hL1, hL2⟩ := floorLog2_bounds (q % 2 ^ 23) (by omega)
      set L := floorLog2 (q % 2 ^ 23) with hLdef
      have hL22 : L ≤ 22 := by
        by_contra hc
        have : (2:Nat) ^ 23 ≤ 2 ^ L := Nat.pow_le_pow_right (by norm_num) (by omega)
        omega
      have hp1 : (2:Nat) ^ (L + 1) = 2 ^ L * 2 := by rw [pow_succ]
      have hp2 : (2:Nat) ^ L * 2 ^ (52 - L) = 2 ^ 52 := by
        rw [← pow_add]
        congr 1
        omega
      have hone : (1:Nat) ≤ 2 ^ L := Nat.one_le_two_pow
      have hXlt : (q % 2 ^ 23 - 2 ^ L) * 2 ^ (52 - L) < 2 ^ 52 := by
        calc (q % 2 ^ 23 - 2 ^ L) * 2 ^ (52 - L)
            < 2 ^ L * 2 ^ (52 - L) :=
              mul_lt_mul_of_pos_right (by omega) (Nat.pos_pow_of_pos _ (by norm_num))
          _ = 2 ^ 52 := hp2
      have hLe : (L + 874) * 2 ^ 52 ≤ 2047 * 2 ^ 52 := by
        exact Nat.mul_le_mul_right _ (by omega)
      have hse : q / 2 ^ 31 % 2 = s ∧ L + 874 = e ∧
          (q % 2 ^ 23 - 2 ^ L) * 2 ^ (52 - L) = m := by
        constructor
        · omega
        constructor
        · omega
        · omega
      obtain ⟨hts, hLe874, hXm⟩ := hse
      have hrange : 874 ≤ e ∧ e ≤ 896 := by omega
      have hdvd : m % 2 ^ (926 - e) = 0 := by
        rw [← hXm, show 926 - e = 52 - L from by omega]
        exact Nat.mul_mod_left _ _
      refine ⟨Or.inr ⟨hrange.1, hrange.2, hdvd⟩, ?_⟩
      rw [canon32, if_neg (by omega)]
      have hmdiv : m / 2 ^ (926 - e) = q % 2 ^ 23 - 2 ^ L := by
        rw [← hXm, show 926 - e = 52 - L from by omega]
        exact Nat.mul_div_cancel _ (Nat.pos_pow_of_pos _ (by norm_num))
      rw [hmdiv, show e - 874 = L from by omega]
      omega
    · -- binary32 normal
      have hMb : q % 2 ^ 23 * 2 ^ 29 < 2 ^ 52 := by omega
      have hse : q / 2 ^ 31 % 2 = s ∧ q / 2 ^ 23 % 256 + 896 = e ∧
          q % 2 ^ 23 * 2 ^ 29 = m := by
        refine ⟨by omega, by omega, by omega⟩
      obtain ⟨hts, hEe, hMm⟩ := hse
      refine ⟨Or.inl ⟨by omega, by omega, by rw [← hMm]; exact Nat.mul_mod_left _ _⟩, ?_⟩
      rw [canon32, if_pos (by omega)]
      have hmdiv : m / 2 ^ 29 = q % 2 ^ 23 := by
        rw [← hMm]
        exact Nat.mul_div_cancel _ (by norm_num)
      rw [hmdiv]
      omega
  · rintro (⟨h1, h2, h3⟩ | ⟨h1, h2, h3⟩)
    · -- normal
      rw [canon32, if_pos (by omega)]
      constructor
      · omega
      rw [widen32_eval s (e - 896) (m / 2 ^ 29) (by omega) (by omega) (by omega)]
      rw [if_neg (by omega), if_neg (by omega)]
      omega
    · -- subnormal
      have hu : 30 ≤ 926 - e ∧ 926 - e ≤ 52 := by omega
      have hA1 : (1:Nat) ≤ 2 ^ (926 - e) := Nat.one_le_two_pow
      have hAB2 : (2:Nat) ^ (e - 874) * 2 ^ (926 - e) = 2 ^ 52 := by
        rw [← pow_add, show e - 874 + (926 - e) = 52 from by omega]
      have hB1 : (1:Nat) ≤ 2 ^ (e - 874) := Nat.one_le_two_pow
      have hBle : (2:Nat) ^ (e - 874) ≤ 2 ^ 22 := Nat.pow_le_pow_right (by norm_num) (by omega)
      have hmm : m / 2 ^ (926 - e) * 2 ^ (926 - e) = m :=
        Nat.div_mul_cancel (Nat.dvd_of_mod_eq_zero h3)
      have hdm : m / 2 ^ (926 - e) < 2 ^ (e - 874) := by
        by_contra hc
        push_neg at hc
        have hmul : 2 ^ (e - 874) * 2 ^ (926 - e) ≤ m / 2 ^ (926 - e) * 2 ^ (926 - e) :=
          Nat.mul_le_mul_right _ hc
        omega
      obtain ⟨D, hD⟩ : ∃ D, m / 2 ^ (926 - e) = D := ⟨_, rfl⟩
      rw [hD] at hmm hdm
      have hM : D + 2 ^ (e - 874) < 2 ^ 23 := by omega
      rw [canon32, if_neg (by omega), hD]
      refine ⟨by omega, ?_⟩
      rw [show s * 2 ^ 31 + (D + 2 ^ (e - 874)) =
        s * 2 ^ 31 + 0 * 2 ^ 23 + (D + 2 ^ (e - 874)) from by ring]
      rw [widen32_eval s 0 (D + 2 ^ (e - 874)) (by omega) (by omega) hM]
      rw [if_neg (by omega), if_pos rfl, if_neg (by omega)]
      have hp3 : (2:Nat) ^ (e - 874 + 1) = 2 ^ (e - 874) * 2 := by rw [pow_succ]
      have hfl : floorLog2 (D + 2 ^ (e - 874)) = e - 874 :=
        floorLog2_spec _ _ (by omega) (by omega)
      rw [hfl]
      have hsimp : D + 2 ^ (e - 874) - 2 ^ (e - 874) = D := by omega
      rw [hsimp, show 52 - (e - 874) = 926 - e from by omega]
      rw [hmm]
      omega

/-- Characterization of exact 16-bit representability of a finite nonzero
double: the representing patterns are exactly `canon16`. -/
theorem widen16_char (s e m : Nat) (hs : s < 2) (he : e < 2048) (hm : m < 2 ^ 52)
    (hfin : e ≠ 2047) (hnz : ¬ (e = 0 ∧ m = 0)) :
    (∀ q, q < 2 ^ 16 → widen16 q = s * 2 ^ 63 + e * 2 ^ 52 + m →
      ((1009 ≤ e ∧ e ≤ 1038 ∧ m % 2 ^ 42 = 0) ∨
       (999 ≤ e ∧ e ≤ 1008 ∧ m % 2 ^ (1051 - e) = 0)) ∧ q = canon16 s e m) ∧
    (((1009 ≤ e ∧ e ≤ 1038 ∧ m % 2 ^ 42 = 0) ∨
      (999 ≤ e ∧ e ≤ 1008 ∧ m % 2 ^ (1051 - e) = 0)) →
      canon16 s e m < 2 ^ 16 ∧
      widen16 (canon16 s e m) = s * 2 ^ 63 + e * 2 ^ 52 + m) := by
  constructor
  · intro q hq hw
    rw [show q = q / 2 ^ 15 % 2 * 2 ^ 15 + q / 2 ^ 10 % 32 * 2 ^ 10 + q % 2 ^ 10
      from by omega] at hw
    rw [widen16_eval (q / 2 ^ 15 % 2) (q / 2 ^ 10 % 32) (q % 2 ^ 10)
      (by omega) (by omega) (by omega)] at hw
    split_ifs at hw with h31 h0 hM0
    · exfalso
      have hMb : q % 2 ^ 10 * 2 ^ 42 < 2 ^ 52 := by omega
      omega
    · exfalso
      apply hnz
      omega
    · -- binary16 subnormal
      obtain ⟨hL1, hL2⟩ := floorLog2_bounds (q % 2 ^ 10) (by omega)
      set L := floorLog2 (q % 2 ^ 10) with hLdef
      have hL9 : L ≤ 9 := by
        by_contra hc
        have : (2:Nat) ^ 10 ≤ 2 ^ L := Nat.pow_le_pow_right (by norm_num) (by omega)
        omega
      have hp1 : (2:Nat) ^ (L + 1) = 2 ^ L * 2 := by rw [pow_succ]
      have hp2 : (2:Nat) ^ L * 2 ^ (52 - L) = 2 ^ 52 := by
        rw [← pow_add, show L + (52 - L) = 52 from by omega]
      have hone : (1:Nat) ≤ 2 ^ L := Nat.one_le_two_pow
      have hXlt : (q % 2 ^ 10 - 2 ^ L) * 2 ^ (52 - L) < 2 ^ 52 := by
        calc (q % 2 ^ 10 - 2 ^ L) * 2 ^ (52 - L)
            < 2 ^ L * 2 ^ (52 - L) :=
              mul_lt_mul_of_pos_right (by omega) (Nat.pos_pow_of_pos _ (by norm_num))
          _ = 2 ^ 52 := hp2
      have hLe : (L + 999) * 2 ^ 52 ≤ 2047 * 2 ^ 52 := by
        exact Nat.mul_le_mul_right _ (by omega)
      have hse : q / 2 ^ 15 % 2 = s ∧ L + 999 = e ∧
          (q % 2 ^ 10 - 2 ^ L) * 2 ^ (52 - L) = m := by
        refine ⟨by omega, by omega, by omega⟩
      obtain ⟨hts, hLe999, hXm⟩ := hse
      have hrange : 999 ≤ e ∧ e ≤ 1008 := by omega
      have hdvd : m % 2 ^ (1051 - e) = 0 := by
        rw [← hXm, show 1051 - e = 52 - L from by omega]
        exact Nat.mul_mod_left _ _
      refine ⟨Or.inr ⟨hrange.1, hrange.2, hdvd⟩, ?_⟩
      rw [canon16, if_neg (by omega)]
      have hmdiv : m / 2 ^ (1051 - e) = q % 2 ^ 10 - 2 ^ L := by
        rw [← hXm, show 1051 - e = 52 - L from by omega]
        exact Nat.mul_div_cancel _ (Nat.pos_pow_of_pos _ (by norm_num))
      rw [hmdiv, show e - 999 = L from by omega]
      omega
    · -- binary16 normal
      have hMb : q % 2 ^ 10 * 2 ^ 42 < 2 ^ 52 := by omega
      have hse : q / 2 ^ 15 % 2 = s ∧ q / 2 ^ 10 % 32 + 1008 = e ∧
          q % 2 ^ 10 * 2 ^ 42 = m := by
        refine ⟨by omega, by omega, by omega⟩
      obtain ⟨hts, hEe, hMm⟩ := hse
      refine ⟨Or.inl ⟨by omega, by omega, by rw [← hMm]; exact Nat.mul_mod_left _ _⟩, ?_⟩
      rw [canon16, if_pos (by omega)]
      have hmdiv : m / 2 ^ 42 = q % 2 ^ 10 := by
        rw [← hMm]
        exact Nat.mul_div_cancel _ (by norm_num)
      rw [hmdiv]
      omega
  · rintro (⟨h1, h2, h3⟩ | ⟨h1, h2, h3⟩)
    · -- normal
      rw [canon16, if_pos (by omega)]
      constructor
      · omega
      rw [widen16_eval s (e - 1008) (m / 2 ^ 42) (by omega) (by omega) (by omega)]
      rw [if_neg (by omega), if_neg (by omega)]
      omega
    · -- subnormal
      have hu : 43 ≤ 1051 - e ∧ 1051 - e ≤ 52 := by omega
      have hA1 : (1:Nat) ≤ 2 ^ (1051 - e) := Nat.one_le_two_pow
      have hAB2 : (2:Nat) ^ (e - 999) * 2 ^ (1051 - e) = 2 ^ 52 := by
        rw [← pow_add, show e - 999 + (1051 - e) = 52 from by omega]
      have hB1 : (1:Nat) ≤ 2 ^ (e - 999) := Nat.one_le_two_pow
      have hBle : (2:Nat) ^ (e - 999) ≤ 2 ^ 9 := Nat.pow_le_pow_right (by norm_num) (by omega)
      have hmm : m / 2 ^ (1051 - e) * 2 ^ (1051 - e) = m :=
        Nat.div_mul_cancel (Nat.dvd_of_mod_eq_zero h3)
      have hdm : m / 2 ^ (1051 - e) < 2 ^ (e - 999) := by
        by_contra hc
        push_neg at hc
        have hmul : 2 ^ (e - 999) * 2 ^ (1051 - e) ≤ m / 2 ^ (1051 - e) * 2 ^ (1051 - e) :=
          Nat.mul_le_mul_right _ hc
        omega
      obtain ⟨D, hD⟩ : ∃ D, m / 2 ^ (1051 - e) = D := ⟨_, rfl⟩
      rw [hD] at hmm hdm
      have hM : D + 2 ^ (e - 999) < 2 ^ 10 := by omega
      rw [canon16, if_neg (by omega), hD]
      refine ⟨by omega, ?_⟩
      rw [show s * 2 ^ 15 + (D + 2 ^ (e - 999)) =
        s * 2 ^ 15 + 0 * 2 ^ 10 + (D + 2 ^ (e - 999)) from by ring]
      rw [widen16_eval s 0 (D + 2 ^ (e - 999)) (by omega) (by omega) hM]
      rw [if_neg (by omega), if_pos rfl, if_neg (by omega)]
      have hp3 : (2:Nat) ^ (e - 999 + 1) = 2 ^ (e - 999) * 2 := by rw [pow_succ]
      have hfl : floorLog2 (D + 2 ^ (e - 999)) = e - 999 :=
        floorLog2_spec _ _ (by omega) (by omega)
      rw [hfl]
      have hsimp : D + 2 ^ (e - 999) - 2 ^ (e - 999) = D := by omega
      rw [hsimp, show 52 - (e - 999) = 1051 - e from by omega]
      rw [hmm]
      omega

/-- Splitting divisibility by a product of two powers of two. -/
theorem mod_pow_comp (m a b : Nat) :
    m % 2 ^ (a + b) = 0 ↔ m % 2 ^ a = 0 ∧ (m / 2 ^ a) % 2 ^ b = 0 := by
  have hpos : (0:Nat) < 2 ^ a := Nat.pos_pow_of_pos _ (by norm_num)
  rw [pow_add]
  constructor
  · intro h
    obtain ⟨c, hc⟩ := Nat.dvd_of_mod_eq_zero h
    subst hc
    rw [mul_assoc]
    constructor
    · exact Nat.mul_mod_right _ _
    · rw [Nat.mul_div_cancel_left _ hpos]
      exact Nat.mul_mod_right _ _
  · rintro ⟨h1, h2⟩
    obtain ⟨c, hc⟩ := Nat.dvd_of_mod_eq_zero h1
    have hc2 : m / 2 ^ a = c := by
      rw [hc]
      exact Nat.mul_div_cancel_left _ hpos
    obtain ⟨d, hd⟩ := Nat.dvd_of_mod_eq_zero h2
    rw [hc2] at hd
    rw [hc, hd, show 2 ^ a * (2 ^ b * d) = 2 ^ a * 2 ^ b * d from by ring]
    exact Nat.mul_mod_right _ _

/-- A sum of two multiples divides out additively. -/
theorem add_div_of_dvd (x y c : Nat) (hc : 0 < c) (hx : x % c = 0) (hy : y % c = 0) :
    (x + y) / c = x / c + y / c ∧ (x + y) % c = 0 := by
  obtain ⟨a, ha⟩ := Nat.dvd_of_mod_eq_zero hx
  obtain ⟨b, hb⟩ := Nat.dvd_of_mod_eq_zero hy
  subst ha
  subst hb
  rw [← Nat.mul_add]
  refine ⟨?_, Nat.mul_mod_right _ _⟩
  rw [Nat.mul_div_cancel_left _ hc, Nat.mul_div_cancel_left _ hc,
    Nat.mul_div_cancel_left _ hc]

/-- `floatCtor` on an exactly-representable binary32 subnormal: the
constructor emits the F32 form (the value is far below the F16 range). -/
theorem floatCtor_e32_sub (s e m : Nat) (hs : s < 2) (hm : m < 2 ^ 52)
    (h1 : 874 ≤ e) (h2 : e ≤ 896) (h3 : m % 2 ^ (926 - e) = 0) :
    floatCtor (s * 2 ^ 63 + e * 2 ^ 52 + m) =
      .ok (0xfa, f32Bytes (canon32 s e m)) := by
  have he : e < 2048 := by omega
  obtain ⟨hx1, hx2, hx3⟩ := pattern_extract s e m hs he hm
  obtain ⟨hb0, hb1, hb2, hb3, hb4, hb5, hb6, hb7⟩ := f64Byte_eval s e m hs he hm
  have hm29 : m % 2 ^ 29 = 0 := by
    have := (mod_pow_comp m 29 (926 - e - 29)).mp (by
      rw [show 29 + (926 - e - 29) = 926 - e from by omega]
      exact h3)
    exact this.1
  have hmq : (m / 2 ^ 29) % 2 ^ (897 - e) = 0 := by
    have := (mod_pow_comp m 29 (897 - e)).mp (by
      rw [show 29 + (897 - e) = 926 - e from by omega]
      exact h3)
    exact this.2
  have hf32 : f32Exact (s * 2 ^ 63 + e * 2 ^ 52 + m) = true := by
    simp only [f32Exact]
    rw [hx1, hx2]
    simp only [decide_eq_true_eq]
    exact Or.inr ⟨h1, h2, h3⟩
  simp only [floatCtor]
  rw [hx1, hx2, hx3]
  rw [if_neg (show ¬ (e = 2047 ∧ m ≠ 0) from fun hh => by omega),
    if_neg (show ¬ e = 2047 from by omega),
    if_neg (show ¬ (e = 0 ∧ m = 0) from fun hh => by omega),
    if_pos hf32]
  rw [hb0, hb1, hb2, hb3, hb4, hb5, hb6, hb7]
  have hc7f : (s * 128 + e / 16) &&& 0x7f = e / 16 := by
    rw [(byte_and_facts _ (by omega)).1]
    omega
  have hcf0 : (e % 16 * 16 + m / 2 ^ 48) &&& 0xf0 = e % 16 * 16 := by
    rw [(byte_and_facts _ (by omega)).2.1]
    omega
  have hc1f : (m / 2 ^ 24 % 256) &&& 0x1f = 0 := by
    rw [(byte_and_facts _ (by omega)).2.2.2.1]
    omega
  have hc80 : (s * 128 + e / 16) &&& 0x80 = s * 128 := by
    rw [(byte_and_facts _ (by omega)).2.2.2.2]
    omega
  rw [hc7f, hcf0, hc1f, hc80]
  rw [if_neg (show ¬ ((0:Nat) ≠ 0 ∨ m / 2 ^ 16 % 256 ≠ 0 ∨ m / 2 ^ 8 % 256 ≠ 0 ∨
    m % 256 ≠ 0) from by push_neg; refine ⟨rfl, by omega, by omega, by omega⟩)]
  rw [Nat.shiftLeft_eq, Nat.shiftLeft_eq, Nat.shiftLeft_eq, Nat.shiftLeft_eq,
    Nat.shiftRight_eq_div_pow, Nat.shiftRight_eq_div_pow]
  rw [show e / 16 * 2 ^ 4 + e % 16 * 16 / 2 ^ 4 = e from by omega]
  rw [show (e % 16 * 16 + m / 2 ^ 48) &&& 0x0f = m / 2 ^ 48 from by
    rw [(byte_and_facts _ (by omega)).2.2.1]; omega]
  rw [show m / 2 ^ 48 * 2 ^ 19 + m / 2 ^ 40 % 256 * 2 ^ 11 + m / 2 ^ 32 % 256 * 2 ^ 3 +
    m / 2 ^ 24 % 256 / 2 ^ 5 = m / 2 ^ 29 from by omega]
  rw [if_pos (show ((e:Int) - 1023 + 127 ≤ 0) from by omega)]
  simp only [renormF32]
  rw [show (-((e:Int) - 1023 + 127 - 1)).toNat = 897 - e from by omega]
  have hdvd : (m / 2 ^ 29 + 2 ^ 23) % 2 ^ (897 - e) = 0 := by
    have h23 : (2:Nat) ^ 23 % 2 ^ (897 - e) = 0 :=
      Nat.mod_eq_zero_of_dvd (pow_dvd_pow 2 (by omega))
    exact (add_div_of_dvd _ _ _ (Nat.pos_pow_of_pos _ (by norm_num)) hmq h23).2
  rw [renormF32A_ok _ _ _ hdvd]
  rw [show (e:Int) - 1023 + 127 - 1 + ((897 - e : Nat) : Int) = 0 from by omega]
  simp only [Int.toNat_zero]
  rw [if_pos (Or.inl trivial)]
  have hsplit := add_div_of_dvd (m / 2 ^ 29) (2 ^ 23) (2 ^ (897 - e))
    (Nat.pos_pow_of_pos _ (by norm_num)) hmq
    (Nat.mod_eq_zero_of_dvd (pow_dvd_pow 2 (by omega)))
  rw [hsplit.1]
  have hdd : m / 2 ^ 29 / 2 ^ (897 - e) = m / 2 ^ (926 - e) := by
    rw [Nat.div_div_eq_div_mul, ← pow_add, show 29 + (897 - e) = 926 - e from by omega]
  have hpd : (2:Nat) ^ 23 / 2 ^ (897 - e) = 2 ^ (e - 874) := by
    rw [Nat.pow_div (by omega) (by norm_num), show 23 - (897 - e) = e - 874 from by omega]
  rw [hdd, hpd]
  rw [canon32, if_neg (by omega)]
  rw [show s * 128 * 16777216 + 0 * 8388608 + (m / 2 ^ (926 - e) + 2 ^ (e - 874)) =
    s * 2 ^ 31 + (m / 2 ^ (926 - e) + 2 ^ (e - 874)) from by ring]

/-- `floatCtor` on an exactly-representable binary32 normal: the constructor
keeps F32 or narrows to F16 according to the significand and exponent
checks. -/
theorem floatCtor_e32_norm_stage (s e m : Nat) (hs : s < 2) (hm : m < 2 ^ 52)
    (h1 : 897 ≤ e) (h2 : e ≤ 1150) (h3 : m % 2 ^ 29 = 0) :
    floatCtor (s * 2 ^ 63 + e * 2 ^ 52 + m) =
      if (m / 2 ^ 29) % 2 ^ 13 ≠ 0 then .ok (0xfa, f32Bytes (canon32 s e m))
      else if 1038 < e then .ok (0xfa, f32Bytes (canon32 s e m))
      else if 1009 ≤ e then .ok (0xf9, int16ToByteArray (canon16 s e m))
      else if (m / 2 ^ 42 + 2 ^ 10) % 2 ^ (1009 - e) = 0 then
        .ok (0xf9, int16ToByteArray (canon16 s e m))
      else .ok (0xfa, f32Bytes (canon32 s e m)) := by
  have he : e < 2048 := by omega
  obtain ⟨hx1, hx2, hx3⟩ := pattern_extract s e m hs he hm
  obtain ⟨hb0, hb1, hb2, hb3, hb4, hb5, hb6, hb7⟩ := f64Byte_eval s e m hs he hm
  have hf32 : f32Exact (s * 2 ^ 63 + e * 2 ^ 52 + m) = true := by
    simp only [f32Exact]
    rw [hx1, hx2]
    simp only [decide_eq_true_eq]
    exact Or.inl ⟨h1, h2, h3⟩
  simp only [floatCtor]
  rw [hx1, hx2, hx3]
  rw [if_neg (show ¬ (e = 2047 ∧ m ≠ 0) from fun hh => by omega),
    if_neg (show ¬ e = 2047 from by omega),
    if_neg (show ¬ (e = 0 ∧ m = 0) from fun hh => by omega),
    if_pos hf32]
  rw [hb0, hb1, hb2, hb3, hb4, hb5, hb6, hb7]
  have hc7f : (s * 128 + e / 16) &&& 0x7f = e / 16 := by
    rw [(byte_and_facts _ (by omega)).1]
    omega
  have hcf0 : (e % 16 * 16 + m / 2 ^ 48) &&& 0xf0 = e % 16 * 16 := by
    rw [(byte_and_facts _ (by omega)).2.1]
    omega
  have hc1f : (m / 2 ^ 24 % 256) &&& 0x1f = 0 := by
    rw [(byte_and_facts _ (by omega)).2.2.2.1]
    omega
  have hc80 : (s * 128 + e / 16) &&& 0x80 = s * 128 := by
    rw [(byte_and_facts _ (by omega)).2.2.2.2]
    omega
  rw [hc7f, hcf0, hc1f, hc80]
  rw [if_neg (show ¬ ((0:Nat) ≠ 0 ∨ m / 2 ^ 16 % 256 ≠ 0 ∨ m / 2 ^ 8 % 256 ≠ 0 ∨
    m % 256 ≠ 0) from by push_neg; refine ⟨rfl, by omega, by omega, by omega⟩)]
  rw [Nat.shiftLeft_eq, Nat.shiftLeft_eq, Nat.shiftLeft_eq, Nat.shiftLeft_eq,
    Nat.shiftRight_eq_div_pow, Nat.shiftRight_eq_div_pow]
  rw [show e / 16 * 2 ^ 4 + e % 16 * 16 / 2 ^ 4 = e from by omega]
  rw [show (e % 16 * 16 + m / 2 ^ 48) &&& 0x0f = m / 2 ^ 48 from by
    rw [(byte_and_facts _ (by omega)).2.2.1]; omega]
  rw [show m / 2 ^ 48 * 2 ^ 19 + m / 2 ^ 40 % 256 * 2 ^ 11 + m / 2 ^ 32 % 256 * 2 ^ 3 +
    m / 2 ^ 24 % 256 / 2 ^ 5 = m / 2 ^ 29 from by omega]
  rw [if_neg (show ¬ ((e:Int) - 1023 + 127 ≤ 0) from by omega)]
  simp only [Nat.shiftRight_eq_div_pow]
  rw [show (8191:Nat) = 2 ^ 13 - 1 from by norm_num, Nat.and_pow_two_sub_one_eq_mod]
  rw [show m / 2 ^ 29 / 2 ^ 13 = m / 2 ^ 42 from by
    rw [Nat.div_div_eq_div_mul]; norm_num]
  have hcan32 : s * 128 * 16777216 + ((e:Int) - 1023 + 127).toNat * 8388608 + m / 2 ^ 29 =
      canon32 s e m := by
    rw [canon32, if_pos (by omega), show ((e:Int) - 1023 + 127).toNat = e - 896 from by omega]
    omega
  by_cases hc1 : (m / 2 ^ 29) % 2 ^ 13 = 0
  · rw [if_neg (show ¬ _ from by
      push_neg
      exact ⟨by omega, hc1⟩)]
    rw [if_neg (show ¬ (m / 2 ^ 29) % 2 ^ 13 ≠ 0 from fun hh => hh hc1)]
    by_cases hc2 : 1038 < e
    · rw [if_pos (show ((e:Int) - 1023 + 127 - 127 + 15 > 30) from by omega),
        if_pos hc2, hcan32]
    · rw [if_neg (show ¬ ((e:Int) - 1023 + 127 - 127 + 15 > 30) from by omega),
        if_neg hc2]
      by_cases hc3 : 1009 ≤ e
      · rw [if_neg (show ¬ ((e:Int) - 1023 + 127 - 127 + 15 ≤ 0) from by omega),
          if_pos hc3]
        rw [show ((e:Int) - 1023 + 127 - 127 + 15).toNat = e - 1008 from by omega]
        rw [canon16, if_pos hc3]
        rw [Nat.shiftLeft_eq, show s * 128 * 2 ^ 8 + (e - 1008) * 2 ^ 10 + m / 2 ^ 42 =
          s * 2 ^ 15 + (e - 1008) * 2 ^ 10 + m / 2 ^ 42 from by ring]
      · rw [if_pos (show ((e:Int) - 1023 + 127 - 127 + 15 ≤ 0) from by omega),
          if_neg hc3]
        simp only [renormF16]
        rw [show (-((e:Int) - 1023 + 127 - 127 + 15 - 1)).toNat = 1009 - e from by omega]
        by_cases hc4 : (m / 2 ^ 42 + 2 ^ 10) % 2 ^ (1009 - e) = 0
        · rw [if_pos hc4]
          have he999 : 999 ≤ e := by
            by_contra hcc
            have hlow : (2:Nat) ^ 11 ≤ 2 ^ (1009 - e) :=
              Nat.pow_le_pow_right (by norm_num) (by omega)
            have hm10 : m / 2 ^ 42 < 2 ^ 10 := by omega
            rw [Nat.mod_eq_of_lt (by omega)] at hc4
            omega
          have h10 : (2:Nat) ^ 10 % 2 ^ (1009 - e) = 0 :=
            Nat.mod_eq_zero_of_dvd (pow_dvd_pow 2 (by omega))
          have hx : (m / 2 ^ 42) % 2 ^ (1009 - e) = 0 := by
            refine Nat.mod_eq_zero_of_dvd ?_
            have hd := Nat.dvd_sub' (Nat.dvd_of_mod_eq_zero hc4)
              (Nat.dvd_of_mod_eq_zero h10)
            simpa using hd
          rw [renormF16A_ok _ _ _ hc4]
          rw [show ((e:Int) - 1023 + 127 - 127 + 15 - 1) + ((1009 - e : Nat) : Int) = 0
            from by omega]
          have hsplit := add_div_of_dvd (m / 2 ^ 42) (2 ^ 10) (2 ^ (1009 - e))
            (Nat.pos_pow_of_pos _ (by norm_num)) hx h10
          rw [hsplit.1]
          rw [show m / 2 ^ 42 / 2 ^ (1009 - e) = m / 2 ^ (1051 - e) from by
            rw [Nat.div_div_eq_div_mul, ← pow_add,
              show 42 + (1009 - e) = 1051 - e from by omega]]
          rw [show (2:Nat) ^ 10 / 2 ^ (1009 - e) = 2 ^ (e - 999) from by
            rw [Nat.pow_div (by omega) (by norm_num),
              show 10 - (1009 - e) = e - 999 from by omega]]
          have hpos : 1 ≤ 2 ^ (e - 999) := Nat.one_le_two_pow
          obtain ⟨D, hD⟩ : ∃ D, m / 2 ^ (1051 - e) = D := ⟨_, rfl⟩
          rw [hD]
          obtain ⟨k, hk⟩ : ∃ k, D + 2 ^ (e - 999) = k + 1 :=
            ⟨D + 2 ^ (e - 999) - 1, by omega⟩
          rw [hk]
          simp only [Int.toNat_zero]
          rw [canon16, if_neg (by omega), hD, hk]
          rw [Nat.shiftLeft_eq, show s * 128 * 2 ^ 8 + 0 * 2 ^ 10 + (k + 1) =
            s * 2 ^ 15 + (k + 1) from by ring]
        · rw [if_neg hc4]
          rcases hpair : renormF16A (1009 - e) (m / 2 ^ 42 + 2 ^ 10)
            ((e:Int) - 1023 + 127 - 127 + 15 - 1) with ⟨s1, e1⟩
          have hs1 : s1 = 0 := by
            have hb := renormF16A_break (1009 - e) (m / 2 ^ 42 + 2 ^ 10)
              ((e:Int) - 1023 + 127 - 127 + 15 - 1) hc4
            rw [hpair] at hb
            exact hb
          subst hs1
          rw [hcan32]
  · rw [if_pos (Or.inr hc1), if_pos hc1, hcan32]

/-- `floatCtor` on NaN, infinities and zeros: fixed 16-bit patterns. -/
theorem floatCtor_specials (s e m : Nat) (hs : s < 2) (he : e < 2048) (hm : m < 2 ^ 52) :
    (e = 2047 → m ≠ 0 → floatCtor (s * 2 ^ 63 + e * 2 ^ 52 + m) =
      .ok (0xf9, int16ToByteArray 0x7e00)) ∧
    (e = 2047 → m = 0 → floatCtor (s * 2 ^ 63 + e * 2 ^ 52 + m) =
      .ok (0xf9, int16ToByteArray (if s = 1 then 0xfc00 else 0x7c00))) ∧
    (e = 0 → m = 0 → floatCtor (s * 2 ^ 63 + e * 2 ^ 52 + m) =
      .ok (0xf9, int16ToByteArray (if s = 1 then 0x8000 else 0x0000))) := by
  obtain ⟨hx1, hx2, hx3⟩ := pattern_extract s e m hs he hm
  refine ⟨?_, ?_, ?_⟩ <;> intro h1 h2 <;> simp only [floatCtor] <;> rw [hx1, hx2, hx3]
  · rw [if_pos ⟨h1, h2⟩]
  · rw [if_neg (show ¬ (e = 2047 ∧ m ≠ 0) from fun hh => hh.2 h2), if_pos h1]
  · rw [if_neg (show ¬ (e = 2047 ∧ m ≠ 0) from fun hh => by omega),
      if_neg (show ¬ e = 2047 from by omega), if_pos ⟨h1, h2⟩]

/-- `floatCtor` on a finite nonzero double not representable at 32-bit
width: the full 64-bit form. -/
theorem floatCtor_not32 (s e m : Nat) (hs : s < 2) (he : e < 2048) (hm : m < 2 ^ 52)
    (hfin : e ≠ 2047) (hnz : ¬ (e = 0 ∧ m = 0))
    (hn32 : ¬ ((897 ≤ e ∧ e ≤ 1150 ∧ m % 2 ^ 29 = 0) ∨
      (874 ≤ e ∧ e ≤ 896 ∧ m % 2 ^ (926 - e) = 0))) :
    floatCtor (s * 2 ^ 63 + e * 2 ^ 52 + m) =
      .ok (0xfb, (List.range 8).map (f64Byte (s * 2 ^ 63 + e * 2 ^ 52 + m))) := by
  obtain ⟨hx1, hx2, hx3⟩ := pattern_extract s e m hs he hm
  have hf32 : f32Exact (s * 2 ^ 63 + e * 2 ^ 52 + m) = false := by
    simp only [f32Exact]
    rw [hx1, hx2]
    simpa using hn32
  simp only [floatCtor]
  rw [hx1, hx2, hx3]
  rw [if_neg (show ¬ (e = 2047 ∧ m ≠ 0) from fun hh => by omega),
    if_neg hfin,
    if_neg hnz,
    if_neg (show ¬ f32Exact (s * 2 ^ 63 + e * 2 ^ 52 + m) = true from by
      rw [hf32]; simp)]

/-- C2: for every finite nonzero double (given by sign `s`, biased exponent
`e`, mantissa `m`), the Float canonicalizer chooses the smallest IEEE width
in 16, 32 and 64 bits that reproduces the 64-bit double exactly: if some
16-bit pattern `q` widens back to the double, the encoding is `f9` followed
by `q`; otherwise if some 32-bit pattern `q` widens back to it, the encoding
is `fa` followed by `q`; otherwise it is `fb` followed by the eight bytes of
the double itself. NaN, the infinities and the zeros map to fixed 16-bit
patterns. The five literal vectors of the spec hold: the doubles given by
the binary32 pattern 38801000, the binary16 pattern 7bff, the binary32
pattern 477fe001, the binary16 pattern 8001 and the binary32 pattern
00000001 encode as fa38801000, f97bff, fa477fe001, f98001 and fa00000001. -/
theorem c2_float_canonicalizer :
    (∀ s e m : Nat, s < 2 → e < 2048 → m < 2 ^ 52 →
      ((e = 2047 ∧ m ≠ 0 →
         floatEncode (s * 2 ^ 63 + e * 2 ^ 52 + m) = [0xf9, 0x7e, 0x00]) ∧
       (e = 2047 ∧ m = 0 →
         floatEncode (s * 2 ^ 63 + e * 2 ^ 52 + m) =
           [0xf9, if s = 1 then 0xfc else 0x7c, 0x00]) ∧
       (e = 0 ∧ m = 0 →
         floatEncode (s * 2 ^ 63 + e * 2 ^ 52 + m) =
           [0xf9, if s = 1 then 0x80 else 0x00, 0x00]) ∧
       (e ≠ 2047 → ¬ (e = 0 ∧ m = 0) →
         (∀ q, q < 2 ^ 16 → widen16 q = s * 2 ^ 63 + e * 2 ^ 52 + m →
           floatEncode (s * 2 ^ 63 + e * 2 ^ 52 + m) = 0xf9 :: int16ToByteArray q) ∧
         ((¬ ∃ q, q < 2 ^ 16 ∧ widen16 q = s * 2 ^ 63 + e * 2 ^ 52 + m) →
           ∀ q, q < 2 ^ 32 → widen32 q = s * 2 ^ 63 + e * 2 ^ 52 + m →
             floatEncode (s * 2 ^ 63 + e * 2 ^ 52 + m) = 0xfa :: f32Bytes q) ∧
         ((¬ ∃ q, q < 2 ^ 32 ∧ widen32 q = s * 2 ^ 63 + e * 2 ^ 52 + m) →
           floatEncode (s * 2 ^ 63 + e * 2 ^ 52 + m) =
             0xfb :: (List.range 8).map (f64Byte (s * 2 ^ 63 + e * 2 ^ 52 + m)))))) ∧
    floatEncode (widen32 0x38801000) = [0xfa, 0x38, 0x80, 0x10, 0x00] ∧
    floatEncode (widen16 0x7bff) = [0xf9, 0x7b, 0xff] ∧
    floatEncode (widen32 0x477fe001) = [0xfa, 0x47, 0x7f, 0xe0, 0x01] ∧
    floatEncode (widen16 0x8001) = [0xf9, 0x80, 0x01] ∧
    floatEncode (widen32 0x00000001) = [0xfa, 0x00, 0x00, 0x00, 0x01] := by
  refine ⟨?_, by rfl, by rfl, by rfl, by rfl, by rfl⟩
  intro s e m hs he hm
  refine ⟨?_, ?_, ?_, ?_⟩
  · rintro ⟨h1, h2⟩
    have hc := (floatCtor_specials s e m hs he hm).1 h1 h2
    simp only [floatEncode, hc]
    decide
  · rintro ⟨h1, h2⟩
    have hc := (floatCtor_specials s e m hs he hm).2.1 h1 h2
    simp only [floatEncode, hc]
    by_cases hs1 : s = 1
    · rw [if_pos hs1, if_pos hs1]
      decide
    · rw [if_neg hs1, if_neg hs1]
      decide
  · rintro ⟨h1, h2⟩
    have hc := (floatCtor_specials s e m hs he hm).2.2 h1 h2
    simp only [floatEncode, hc]
    by_cases hs1 : s = 1
    · rw [if_pos hs1, if_pos hs1]
      decide
    · rw [if_neg hs1, if_neg hs1]
      decide
  · intro hfin hnz
    refine ⟨?_, ?_, ?_⟩
    · -- 16-bit width wins whenever a 16-bit pattern reproduces the double
      intro q hq hw
      obtain ⟨hcond, hqe⟩ := (widen16_char s e m hs he hm hfin hnz).1 q hq hw
      subst hqe
      rcases hcond with ⟨hA, hB, hC⟩ | ⟨hA, hB, hC⟩
      · have hsplit := (mod_pow_comp m 29 13).mp hC
        have hst := floatCtor_e32_norm_stage s e m hs hm (by omega) (by omega) hsplit.1
        have h13 := hsplit.2
        rw [if_neg (by omega), if_neg (by omega), if_pos hA] at hst
        simp only [floatEncode, hst]
      · have h42s : m % 2 ^ (42 + (1009 - e)) = 0 := by
          rw [show 42 + (1009 - e) = 1051 - e from by omega]
          exact hC
        have hsplit := (mod_pow_comp m 42 (1009 - e)).mp h42s
        have h42 := hsplit.1
        have hrest := hsplit.2
        have hsplit29 := (mod_pow_comp m 29 13).mp h42
        have h13 := hsplit29.2
        have hten : (2:Nat) ^ 10 % 2 ^ (1009 - e) = 0 := by
          rw [show (10:Nat) = (1009 - e) + (e - 999) from by omega, pow_add]
          exact Nat.mul_mod_right _ _
        have hdvd : (m / 2 ^ 42 + 2 ^ 10) % 2 ^ (1009 - e) = 0 :=
          (add_div_of_dvd (m / 2 ^ 42) (2 ^ 10) (2 ^ (1009 - e))
            (Nat.pos_pow_of_pos _ (by norm_num)) hrest hten).2
        have hst := floatCtor_e32_norm_stage s e m hs hm (by omega) (by omega)
          hsplit29.1
        rw [if_neg (by omega), if_neg (by omega), if_neg (by omega),
          if_pos hdvd] at hst
        simp only [floatEncode, hst]
    · -- 32-bit width wins when no 16-bit pattern reproduces the double
      intro hno16 q hq hw
      obtain ⟨hcond, hqe⟩ := (widen32_char s e m hs he hm hfin hnz).1 q hq hw
      subst hqe
      rcases hcond with ⟨hA, hB, hC⟩ | ⟨hA, hB, hC⟩
      · have hst := floatCtor_e32_norm_stage s e m hs hm hA hB hC
        by_cases h13 : (m / 2 ^ 29) % 2 ^ 13 = 0
        · have h42 : m % 2 ^ 42 = 0 := (mod_pow_comp m 29 13).mpr ⟨hC, h13⟩
          rw [if_neg (by omega)] at hst
          by_cases h1038 : 1038 < e
          · rw [if_pos h1038] at hst
            simp only [floatEncode, hst]
          · rw [if_neg h1038] at hst
            by_cases h1009 : 1009 ≤ e
            · exfalso
              apply hno16
              have hxw := (widen16_char s e m hs he hm hfin hnz).2
                (Or.inl ⟨h1009, by omega, h42⟩)
              exact ⟨canon16 s e m, hxw.1, hxw.2⟩
            · rw [if_neg h1009] at hst
              by_cases hdiv : (m / 2 ^ 42 + 2 ^ 10) % 2 ^ (1009 - e) = 0
              · exfalso
                apply hno16
                have hqb : m / 2 ^ 42 < 2 ^ 10 := by omega
                have he999 : 999 ≤ e := by
                  by_contra hlt
                  have h11 : (2:Nat) ^ 11 ≤ 2 ^ (1009 - e) :=
                    Nat.pow_le_pow_right (by norm_num) (by omega)
                  have := Nat.mod_eq_of_lt
                    (show m / 2 ^ 42 + 2 ^ 10 < 2 ^ (1009 - e) from by omega)
                  omega
                have hten : (2:Nat) ^ 10 % 2 ^ (1009 - e) = 0 := by
                  rw [show (10:Nat) = (1009 - e) + (e - 999) from by omega, pow_add]
                  exact Nat.mul_mod_right _ _
                have hrest : (m / 2 ^ 42) % 2 ^ (1009 - e) = 0 := by
                  apply Nat.mod_eq_zero_of_dvd
                  have hd := Nat.dvd_sub' (Nat.dvd_of_mod_eq_zero hdiv)
                    (Nat.dvd_of_mod_eq_zero hten)
                  simpa using hd
                have h1051 : m % 2 ^ (1051 - e) = 0 := by
                  have := (mod_pow_comp m 42 (1009 - e)).mpr ⟨h42, hrest⟩
                  rwa [show 42 + (1009 - e) = 1051 - e from by omega] at this
                have hxw := (widen16_char s e m hs he hm hfin hnz).2
                  (Or.inr ⟨he999, by omega, h1051⟩)
                exact ⟨canon16 s e m, hxw.1, hxw.2⟩
              · rw [if_neg hdiv] at hst
                simp only [floatEncode, hst]
        · rw [if_pos h13] at hst
          simp only [floatEncode, hst]
      · have hc := floatCtor_e32_sub s e m hs hm hA hB hC
        simp only [floatEncode, hc]
    · -- otherwise the full 64-bit form is emitted
      intro hno32
      have hn32 : ¬ ((897 ≤ e ∧ e ≤ 1150 ∧ m % 2 ^ 29 = 0) ∨
          (874 ≤ e ∧ e ≤ 896 ∧ m % 2 ^ (926 - e) = 0)) := by
        intro hcond
        apply hno32
        have hxw := (widen32_char s e m hs he hm hfin hnz).2 hcond
        exact ⟨canon32 s e m, hxw.1, hxw.2⟩
      have hc := floatCtor_not32 s e m hs he hm hfin hnz hn32
      simp only [floatEncode, hc]

/-- Witness for C2: the double 65504.0 (sign 0, biased exponent 1038,
mantissa 1023 * 2 ^ 42) is reproduced by the 16-bit pattern 7bff, and the
canonicalizer indeed emits f97bff. -/
theorem c2_float_canonicalizer_witness :
    floatEncode (0 * 2 ^ 63 + 1038 * 2 ^ 52 + 1023 * 2 ^ 42) =
      0xf9 :: int16ToByteArray 0x7bff :=
  ((c2_float_canonicalizer.1 0 1038 (1023 * 2 ^ 42) (by norm_num) (by norm_num)
      (by norm_num)).2.2.2 (by norm_num) (by simp)).1 0x7bff (by norm_num)
    (by decide)

end CborJs
